import Mathlib

/-!
Verification of the SecureDoc Flow privacy proxy backend.

This development gives a shallow embedding, in Lean 4, of the core components
of the backend (PHI anonymization engine, per-identity token-bucket rate
limiter, resilient LLM client with circuit breaker, and the Stripe webhook
ledger), and proves or refutes the behavioural properties stated in the
specification.

Modelling conventions:
* Python strings are modelled as `List Char` (`Str`); Python slicing
  `s[a:b]` is `sliceStr`, `old in s` is `containsSub`, and `s.replace(old, new)`
  is `replaceAll` (left-to-right scan, skipping past each replacement, as
  CPython does).
* Python's `list.sort` / `sorted` are stable; any two stable sorts with the
  same key agree, so they are modelled by the stable insertion sort `sortBy`.
* Python `float` configuration values and arithmetic in the rate limiter are
  modelled by `ℚ`; the concrete inputs used in counterexamples and witnesses
  are dyadic rationals, on which CPython float arithmetic is exact.
* `secrets.token_hex` salts and SHA-256 digests are abstracted by a digest
  function parameter `digestFn : Str → Category → Str` standing for
  `sha256(f"{salt}:{original}:{category}").hexdigest()[:8]`; the predicate
  `GoodDigest` records what is true of any such digest (eight lowercase
  hexadecimal characters).
-/

/-- Python strings, modelled as lists of characters. -/
abbrev Str := List Char

/-- Python slicing `text[a:b]` (with `a ≤ b ≤ len(text)` in all our uses). -/
def sliceStr (t : Str) (a b : Nat) : Str := (t.take b).drop a

/-- Python substring test `needle in hay` (for `hay` scanned left to right). -/
def containsSub (hay needle : Str) : Bool :=
  needle.isPrefixOf hay ||
    match hay with
    | [] => false
    | _ :: t => containsSub t needle

/-- Scanning core of Python `hay.replace(needle, repl)`: scan `hay` left to
right, replace each occurrence of `needle` and continue after it.  The fuel
argument (any value at least `hay.length`) only makes the recursion
structural; `replaceAllGo_congr` below shows the result does not depend on
it. -/
def replaceAllGo (needle repl : Str) : Nat → Str → Str
  | 0, hay => hay
  | fuel + 1, hay =>
    match hay with
    | [] => []
    | c :: rest =>
      if needle.isPrefixOf (c :: rest) then
        repl ++ replaceAllGo needle repl fuel (List.drop (needle.length - 1) rest)
      else
        c :: replaceAllGo needle repl fuel rest

/-- Python `hay.replace(needle, repl)`.  The guard mirrors the fact that the
code never calls `replace` with an empty placeholder. -/
def replaceAll (hay needle repl : Str) : Str :=
  if needle = [] then hay else replaceAllGo needle repl hay.length hay

/-- Stable insertion step: place `a` before the first element `b` with
`le a b`. -/
def insertLe (le : α → α → Bool) (a : α) : List α → List α
  | [] => [a]
  | b :: l => if le a b then a :: b :: l else b :: insertLe le a l

/-- Stable sort by a boolean total preorder.  Python's `sorted`/`list.sort`
are stable, and all stable sorts with the same key function agree, so this
insertion sort is extensionally the sort used by the Python code. -/
def sortBy (le : α → α → Bool) : List α → List α
  | [] => []
  | a :: l => insertLe le a (sortBy le l)

/-- Positions (at most `hay.length`) at which `needle` occurs in `hay`. -/
def occPositions (hay needle : Str) : List Nat :=
  (List.range (hay.length + 1)).filter (fun k => needle.isPrefixOf (hay.drop k))

/-! ## Rate limiter (`backend/routers/securedoc.py`, `_enforce_rate_limit`)

The per-identity bucket table `_rate_state : dict[str, tuple[float, float]]`
is modelled as an association list from identity to `(tokens, last_refill)`.
Clock values (`time.monotonic()`) and the float configuration are `ℚ`. -/

/-- Result of one admission attempt. -/
inductive RLResult where
  | pass : RLResult
  | reject (retryAfter : Nat) : RLResult
deriving DecidableEq, Repr

/-- The in-memory bucket table keyed by identity. -/
abbrev RLState := List (String × ℚ × ℚ)

/-- Python `_rate_state.get(identity, default)`. -/
def rlLookup (st : RLState) (id : String) : Option (ℚ × ℚ) :=
  (st.find? (fun e => e.1 == id)).map (fun e => e.2)

/-- Python `_rate_state[identity] = v` (dict update or insert). -/
def rlSet (st : RLState) (id : String) (v : ℚ × ℚ) : RLState :=
  if st.any (fun e => e.1 == id) then
    st.map (fun e => if e.1 == id then (id, v) else e)
  else
    st ++ [(id, v)]

/-- The refill step of `_enforce_rate_limit`:
`tokens, last = _rate_state.get(identity, (burst, now))` followed by
`min(burst, tokens + max(0.0, now - last) * rate_per_sec)`. -/
def refilledTokens (ratePerSec burst : ℚ) (identity : String) (now : ℚ)
    (st : RLState) : ℚ :=
  let tl := (rlLookup st identity).getD (burst, now)
  min burst (tl.1 + max 0 (now - tl.2) * ratePerSec)

/-- The token bucket of `_enforce_rate_limit`, after the configuration has
been read: refill by `elapsed * rate` capped at `burst`, consume one token if
at least one is available, otherwise reject with
`max(1, int((1.0 - tokens) / rate_per_sec))`.  Python `int()` truncates
toward zero; the argument is positive on the reject path, so it is the floor.
Returns the HTTP outcome together with the new bucket table. -/
def enforceRateLimit (enabled : Bool) (ratePerSec burst : ℚ) (identity : String)
    (now : ℚ) (st : RLState) : RLResult × RLState :=
  if enabled = false then (.pass, st)
  else if ratePerSec ≤ 0 ∨ burst ≤ 0 then (.pass, st)
  else
    let tokens := refilledTokens ratePerSec burst identity now st
    if tokens < 1 then
      (.reject (max 1 (Int.toNat ⌊(1 - tokens) / ratePerSec⌋)), st)
    else
      (.pass, rlSet st identity (tokens - 1, now))

/-! ## Webhook ledger (`backend/routers/billing.py`, `stripe_webhook`)

The `OrderedDict` ledger is an insertion-ordered association list (oldest
first); `popitem(last=False)` drops the head.  Signature verification and
JSON parsing are abstracted into the boolean inputs; the `HTTPException`
raised inside the `try` block for a stale timestamp is caught by the generic
`except Exception` handler and re-raised, still with status 400. -/

/-- Outcome of the webhook endpoint: an HTTP error status, or a 200 success
that may indicate the event was already processed. -/
inductive WebhookOutcome where
  | httpError (code : Nat) : WebhookOutcome
  | ok (alreadyProcessed : Bool) : WebhookOutcome
deriving DecidableEq, Repr

/-- Ledger of processed events: `event_id` with its processing timestamp. -/
abbrev Ledger := List (String × Int)

/-- Python `MAX_PROCESSED_EVENTS = 1000`. -/
def MAX_PROCESSED_EVENTS : Nat := 1000

/-- The `stripe_webhook` handler.  Inputs: whether the `Stripe-Signature`
header is present, whether `stripe_webhook_secret` is configured, whether
`stripe.Webhook.construct_event` accepts the payload, the event's embedded
`created` timestamp, the current time, the event id and type, and the shared
ledger.  Output: HTTP outcome, new ledger, and whether the
`checkout.session.completed` business effect ran. -/
def stripeWebhook (hasSig secretConfigured sigValid : Bool) (created now : Int)
    (eventId eventType : String) (ledger : Ledger) :
    WebhookOutcome × Ledger × Bool :=
  if hasSig = false then (.httpError 400, ledger, false)
  else if secretConfigured = false then (.httpError 500, ledger, false)
  else if sigValid = false then (.httpError 400, ledger, false)
  else if 300 < (now - created).natAbs then (.httpError 400, ledger, false)
  else if ledger.any (fun e => e.1 == eventId) then (.ok true, ledger, false)
  else
    let effect := eventType == "checkout.session.completed"
    let l1 := ledger ++ [(eventId, now)]
    let l2 := if MAX_PROCESSED_EVENTS < l1.length then l1.drop 1 else l1
    (.ok false, l2, effect)

/-! ## Resilient LLM client (`backend/services/llm_client.py`, `LLMClient`)

The outcome of each network attempt is supplied by an oracle
`Nat → AttemptResult` (attempt index ↦ what `_make_request` does).  The model
returns the call outcome, the new `_circuit_breaker_failures` counter, and
the number of network attempts actually made. -/

/-- What a single `_make_request` invocation does. -/
inductive AttemptResult where
  | success (text : Str) : AttemptResult
  | httpError (statusCode : Nat) : AttemptResult
  | timeout : AttemptResult
  | otherError : AttemptResult
deriving DecidableEq, Repr

/-- Result of an `LLMClient.generate` call: a mock (fallback) response, a real
upstream response, or an exhausted/aborted failure (raised `Exception`). -/
inductive GenOutcome where
  | mock (text : Str) : GenOutcome
  | ok (text : Str) : GenOutcome
  | failure : GenOutcome
deriving DecidableEq, Repr

/-- Call result: outcome, new consecutive-failure counter, network attempts. -/
structure GenResult where
  outcome : GenOutcome
  failures : Nat
  networkCalls : Nat
deriving DecidableEq, Repr

/-- Python `RETRYABLE_STATUS_CODES = {408, 429, 500, 502, 503, 504}`. -/
def RETRYABLE_STATUS_CODES : List Nat := [408, 429, 500, 502, 503, 504]

/-- Python `self._circuit_breaker_threshold = 5`. -/
def circuitBreakerThreshold : Nat := 5

/-- Python `_generate_mock_response(prompt, task)`. -/
def mockResponse (prompt task : Str) : Str :=
  "[Mock LLM Response for task: ".toList ++ task ++ "]\n\nAnalysis of anonymized text:\n".toList
    ++ prompt.take 200 ++ "...\n\nSummary: The anonymized data shows clinical information with protected PHI.".toList

/-- The retry loop of `generate`: `remaining` is `max_retries - attempt`,
`idx` the index of the next attempt (for the oracle), `fails` the current
shared failure counter.  Mirrors the `for attempt in range(max_retries)` body:
success returns and resets the counter; a non-retryable HTTP status or an
unexpected error increments the counter and aborts; a retryable HTTP status or
timeout retries unless this was the final attempt, in which case the counter
is incremented and the loop falls through to the final `raise`. -/
def genLoop (oracle : Nat → AttemptResult) (fails : Nat) (idx : Nat) :
    Nat → GenResult
  | 0 => ⟨.failure, fails, 0⟩
  | remaining + 1 =>
    match oracle idx with
    | .success s => ⟨.ok s, 0, 1⟩
    | .httpError code =>
      if code ∈ RETRYABLE_STATUS_CODES then
        if remaining = 0 then ⟨.failure, fails + 1, 1⟩
        else
          let r := genLoop oracle fails (idx + 1) remaining
          ⟨r.outcome, r.failures, r.networkCalls + 1⟩
      else ⟨.failure, fails + 1, 1⟩
    | .timeout =>
      if remaining = 0 then ⟨.failure, fails + 1, 1⟩
      else
        let r := genLoop oracle fails (idx + 1) remaining
        ⟨r.outcome, r.failures, r.networkCalls + 1⟩
    | .otherError => ⟨.failure, fails + 1, 1⟩

/-- Python `LLMClient.generate`: if no API key is configured, or the circuit
breaker is open (`failures ≥ threshold`), return the mock response without
touching the network; otherwise run the retry loop. -/
def llmGenerate (apiKeyConfigured : Bool) (maxRetries : Nat) (fails : Nat)
    (oracle : Nat → AttemptResult) (prompt task : Str) : GenResult :=
  if apiKeyConfigured = false then ⟨.mock (mockResponse prompt task), fails, 0⟩
  else if circuitBreakerThreshold ≤ fails then
    ⟨.mock (mockResponse prompt task), fails, 0⟩
  else genLoop oracle fails 0 maxRetries

/-! ## Anonymization engine (`backend/services/anonymization.py`)

`AnonymizationService.anonymize` runs the eleven compiled regexes over the
input, mints a collision-resistant placeholder per match, records the
placeholder → original mapping, sorts the matches by start offset descending
(Python's stable sort) and substitutes right to left;
`AnonymizationService.reidentify` checks that every placeholder still occurs
in the downstream text (raising `ValueError` in strict mode if not) and then
replaces placeholders by originals in order of decreasing placeholder length.

The regex engine itself is not re-implemented: a detection result is a list
of `RawMatch` spans, and theorems hypothesise exactly what `finditer`
guarantees (nonempty spans inside the text; the matches of one pattern are
mutually non-overlapping and listed in ascending position).  Concrete
counterexamples instantiate the detection list with the spans the Python
regexes actually produce on the given input, which a reader can check
against `PATTERNS`. -/

/-- The keys of `AnonymizationService.PATTERNS`, in dictionary order. -/
inductive Category where
  | date : Category
  | id : Category
  | email : Category
  | phone : Category
  | name : Category
  | art9_health_icd10 : Category
  | art9_genetic_biometric : Category
  | art9_religion : Category
  | art9_politics : Category
  | art9_union : Category
  | art9_sexuality : Category
deriving DecidableEq, Repr

/-- The Python dictionary key for a category. -/
def Category.pyName : Category → String
  | .date => "date"
  | .id => "id"
  | .email => "email"
  | .phone => "phone"
  | .name => "name"
  | .art9_health_icd10 => "art9_health_icd10"
  | .art9_genetic_biometric => "art9_genetic_biometric"
  | .art9_religion => "art9_religion"
  | .art9_politics => "art9_politics"
  | .art9_union => "art9_union"
  | .art9_sexuality => "art9_sexuality"

/-- Python `category.upper()` (ASCII upper-casing of the key). -/
def Category.upperStr (c : Category) : Str :=
  (c.pyName).toList.map Char.toUpper

/-- The base placeholder `f"[{category.upper()}_{hash_digest}]"`. -/
def placeholderBase (cat : Category) (digest : Str) : Str :=
  '[' :: (cat.upperStr ++ '_' :: digest ++ [']'])

/-- The k-th candidate tried by `_generate_placeholder`: the base placeholder
first, then `f"[{category.upper()}_{hash_digest}_{counter}]"` for
`counter = 1, 2, …` (Python `str(counter)` is `Nat.toDigits 10`). -/
def placeholderCand (cat : Category) (digest : Str) : Nat → Str
  | 0 => placeholderBase cat digest
  | Nat.succ n =>
    '[' :: (cat.upperStr ++ '_' :: digest ++ '_' :: Nat.toDigits 10 (n + 1) ++ [']'])

/-- The `while placeholder in self.used_placeholders` loop of
`_generate_placeholder`, returning the first candidate not in `used`.  The
fuel `used.length + 1` is sufficient: the candidates are pairwise distinct,
so among the first `used.length + 1` of them one is fresh and the fallback
arm is never reached (`mintLoop_fresh` below). -/
def mintLoop (used : List Str) (cand : Nat → Str) : Nat → Nat → Str
  | k, 0 => cand k
  | k, fuel + 1 => if cand k ∈ used then mintLoop used cand (k + 1) fuel else cand k

/-- `_generate_placeholder(original, category)`: the digest of
`(session_salt, original, category)` is already folded into `digest`. -/
def mint (used : List Str) (cat : Category) (digest : Str) : Str :=
  mintLoop used (placeholderCand cat digest) 0 (used.length + 1)

/-- A span produced by `pattern.finditer(text)`: half-open character offsets
and the pattern's category.  The matched text itself is `text[start:stop]`. -/
structure RawMatch where
  start : Nat
  stop : Nat
  category : Category
deriving DecidableEq, Repr

/-- A `Match` record of the Python service: span, original text, minted
placeholder. -/
structure AMatch where
  start : Nat
  stop : Nat
  original : Str
  placeholder : Str
deriving DecidableEq, Repr

/-- The collection loop of `anonymize`: for each regex match in pattern-then-
position order, mint a placeholder (the used-placeholder set grows by each
minted placeholder) and record the `Match`. -/
def collectGo (text : Str) (digestFn : Str → Category → Str) (used : List Str) :
    List RawMatch → List AMatch
  | [] => []
  | m :: rest =>
    let orig := sliceStr text m.start m.stop
    let p := mint used m.category (digestFn orig m.category)
    ⟨m.start, m.stop, orig, p⟩ :: collectGo text digestFn (p :: used) rest

/-- One right-to-left substitution step:
`anonymized[:start] + placeholder + anonymized[end:]`. -/
def substStep (acc : Str) (m : AMatch) : Str :=
  acc.take m.start ++ m.placeholder ++ acc.drop m.stop

/-- `AnonymizationService.anonymize`, given the detection result `ms` (in
pattern-then-position order) and the session digest function: mint all
placeholders, sort the matches by start offset descending (stable), apply the
substitutions from end to start, and return the masked text together with
`current_mappings` (placeholder → original, in insertion order). -/
def anonymize (text : Str) (ms : List RawMatch) (digestFn : Str → Category → Str) :
    Str × List (Str × Str) :=
  let ams := collectGo text digestFn [] ms
  let sorted := sortBy (fun a b => decide (b.start ≤ a.start)) ams
  (sorted.foldl substStep text, ams.map (fun a => (a.placeholder, a.original)))

/-- `AnonymizationService.reidentify`: collect the placeholders missing from
the downstream text (raising `ValueError`, modelled as `.error ()`, when
`fail_on_missing_placeholders` is set and some are missing), then substitute
originals for placeholders in order of decreasing placeholder length
(Python's stable `sorted`). -/
def reidentify (strict : Bool) (text : Str) (maps : List (Str × Str)) :
    Except Unit Str :=
  let missing := maps.filter (fun pr => !(containsSub text pr.1))
  if strict && !missing.isEmpty then .error ()
  else
    let sortedM := sortBy (fun a b => decide (b.1.length ≤ a.1.length)) maps
    .ok (sortedM.foldl (fun acc pr => replaceAll acc pr.1 pr.2) text)

/-! ## The generate endpoint (`backend/routers/securedoc.py`,
`generate_securedoc`)

The handler builds a fresh `AnonymizationService`, then inside `try`: rate
limit, anonymize, LLM call, re-identify, `clear_session()`, return.  The
`except HTTPException` and generic `except Exception` arms call
`clear_session()` before re-raising, but the `except ValueError` arm raises
`HTTPException(400)` without clearing.  The model abstracts the rate-limit
outcome (`some code` = an `HTTPException` raised before anonymization) and
the LLM call (`none` = a raised exception), and returns the HTTP outcome
paired with whether `clear_session()` ran before the handler finished. -/

def generateSecuredoc (rl : Option Nat) (llm : Str → Option Str) (strict : Bool)
    (text : Str) (ms : List RawMatch) (digestFn : Str → Category → Str) :
    Except Nat Str × Bool :=
  match rl with
  | some code => (.error code, true)
  | none =>
    let a := anonymize text ms digestFn
    match llm a.1 with
    | none => (.error 500, true)
    | some resp =>
      match reidentify strict resp a.2 with
      | .error _ => (.error 400, false)
      | .ok out => (.ok out, true)

/-! ## Specification-side predicates and proof-support definitions -/

/-- Lowercase hexadecimal characters, the alphabet of
`hashlib.sha256(...).hexdigest()`. -/
def hexChars : Str := "0123456789abcdef".toList

/-- What is true of the digest function induced by any session salt: each
digest is eight lowercase hexadecimal characters. -/
def GoodDigest (digestFn : Str → Category → Str) : Prop :=
  ∀ o c, (digestFn o c).length = 8 ∧ ∀ ch ∈ digestFn o c, ch ∈ hexChars

/-- A well-formed `finditer` span: nonempty (every pattern matches at least
one character) and inside the text. -/
abbrev SpanWF (t : Str) (m : RawMatch) : Prop :=
  m.start < m.stop ∧ m.stop ≤ t.length

/-- What `finditer` guarantees about the combined detection list: spans are
well formed, and the matches of any single pattern are non-overlapping and
listed in ascending position. -/
abbrev DetectionWF (t : Str) (ms : List RawMatch) : Prop :=
  (∀ m ∈ ms, SpanWF t m) ∧
    List.Pairwise (fun a b => a.category = b.category → a.stop ≤ b.start) ms

/-- Pairwise non-overlapping spans (across all categories). -/
abbrev PairwiseDisjoint (ms : List RawMatch) : Prop :=
  List.Pairwise (fun a b => a.stop ≤ b.start ∨ b.stop ≤ a.start) ms

/-- A string without square brackets. -/
abbrev BracketFree (s : Str) : Prop := ∀ c ∈ s, c ≠ '[' ∧ c ≠ ']'

/-- The shape of every minted placeholder: an opening bracket, a
bracket-free interior, a closing bracket. -/
def WellBracketed (p : Str) : Prop :=
  ∃ mid, BracketFree mid ∧ p = '[' :: (mid ++ [']'])

/-- Descending, pairwise-disjoint match list: each later match ends at or
before the start of each earlier one (the shape of the sorted list that
`anonymize` substitutes over). -/
abbrev DescDisjoint (l : List AMatch) : Prop :=
  List.Pairwise (fun a b => b.stop ≤ a.start) l

/-- Segments-and-tokens decomposition of a masked text. -/
def splice : List (Str × Str) → Str → Str
  | [], tail => tail
  | p :: ps, tail => p.1 ++ p.2 ++ splice ps tail

/-- Reference form of the right-to-left substitution over a descending
disjoint match list. -/
def maskOut (t : Str) : List AMatch → Str
  | [] => t
  | m :: rest => maskOut (t.take m.start) rest ++ m.placeholder ++ t.drop m.stop

/-- The segments-and-tokens decomposition induced by a descending disjoint
match list: pieces in ascending position order, plus the trailing segment. -/
def descPieces (t : Str) : List AMatch → List (Str × Str) × Str
  | [] => ([], t)
  | m :: rest =>
    let pr := descPieces (t.take m.start) rest
    (pr.1 ++ [(pr.2, m.placeholder)], t.drop m.stop)

/-- The value a token ends up with after a sequence of
`replace(placeholder, original)` passes. -/
def tokAfter (rs : List (Str × Str)) (t : Str) : Str :=
  rs.foldl (fun t r => if t = r.1 then r.2 else t) t

/-- Decidable equality for `Except`, used to evaluate `reidentify` results on
concrete inputs. -/
instance exceptDecEq {ε α : Type} [DecidableEq ε] [DecidableEq α] : DecidableEq (Except ε α)
  | .error e, .error e' =>
    if h : e = e' then .isTrue (by rw [h]) else .isFalse (fun hc => by cases hc; exact h rfl)
  | .error _, .ok _ => .isFalse (fun hc => by cases hc)
  | .ok _, .error _ => .isFalse (fun hc => by cases hc)
  | .ok a, .ok a' =>
    if h : a = a' then .isTrue (by rw [h]) else .isFalse (fun hc => by cases hc; exact h rfl)

/-! ## Theorems: rate limiter -/

theorem mem_rlSet {st : RLState} {id : String} {v : ℚ × ℚ} :
    ∀ e ∈ rlSet st id v, e ∈ st ∨ e = (id, v) := by
  intro e he
  unfold rlSet at he
  split at he
  · rcases List.mem_map.mp he with ⟨a, ha, hae⟩
    by_cases h : a.1 == id
    · right
      simp only [h, if_pos] at hae
      exact hae.symm
    · left
      simp only [h, if_neg, Bool.false_eq_true, not_false_iff] at hae
      exact hae ▸ ha
  · rcases List.mem_append.mp he with h | h
    · exact Or.inl h
    · right
      simpa using h

/-- C9.  Rate bucket invariant: if every stored bucket satisfies
`0 ≤ tokens ≤ burst` before an admission attempt, then every stored bucket
satisfies `0 ≤ tokens ≤ burst` after it: the refill is capped at the burst
capacity and exactly one token is consumed only when at least one is
available. -/
theorem C9_rate_bucket_invariant (enabled : Bool) (ratePerSec burst : ℚ)
    (identity : String) (now : ℚ) (st : RLState)
    (h : ∀ e ∈ st, 0 ≤ e.2.1 ∧ e.2.1 ≤ burst) :
    ∀ e ∈ (enforceRateLimit enabled ratePerSec burst identity now st).2,
      0 ≤ e.2.1 ∧ e.2.1 ≤ burst := by
  intro e he
  by_cases h1 : enabled = false
  · simp only [enforceRateLimit, h1, if_pos] at he
    exact h e he
  · by_cases h2 : ratePerSec ≤ 0 ∨ burst ≤ 0
    · simp only [enforceRateLimit, h1, if_neg, h2, if_pos, Bool.false_eq_true,
        not_false_iff] at he
      exact h e he
    · by_cases h3 : refilledTokens ratePerSec burst identity now st < 1
      · simp only [enforceRateLimit, h1, h2, h3, if_pos, if_neg, Bool.false_eq_true,
          not_false_iff] at he
        exact h e he
      · simp only [enforceRateLimit, h1, h2, h3, if_pos, if_neg, Bool.false_eq_true,
          not_false_iff] at he
        rcases mem_rlSet e he with hmem | hval
        · exact h e hmem
        · have hburst : ¬ burst ≤ 0 := fun hb => h2 (Or.inr hb)
          have htok : refilledTokens ratePerSec burst identity now st ≤ burst := by
            unfold refilledTokens
            exact min_le_left _ _
          subst hval
          constructor
          · simp only
            linarith [not_lt.mp h3]
          · simp only
            linarith

/-- Closed witness for `C9_rate_bucket_invariant` at a concrete bucket
table. -/
theorem C9_rate_bucket_invariant_witness :
    (∀ e ∈ ([("k", mkRat 1 4, 0)] : RLState), 0 ≤ e.2.1 ∧ e.2.1 ≤ mkRat 5 4) ∧
      ∀ e ∈ (enforceRateLimit true (mkRat 1 2) (mkRat 5 4) "k" 3 [("k", mkRat 1 4, 0)]).2,
        0 ≤ e.2.1 ∧ e.2.1 ≤ mkRat 5 4 :=
  ⟨by decide, C9_rate_bucket_invariant true (mkRat 1 2) (mkRat 5 4) "k" 3
    [("k", mkRat 1 4, 0)] (by decide)⟩

/-- C10.  A rejected admission leaves the bucket table unchanged: the
`HTTPException(429)` is raised before `_rate_state[identity]` is assigned, so
neither the token consumption nor the advanced refill timestamp is written
back. -/
theorem C10_reject_frame (enabled : Bool) (ratePerSec burst : ℚ)
    (identity : String) (now : ℚ) (st : RLState) (r : Nat)
    (h : (enforceRateLimit enabled ratePerSec burst identity now st).1 =
      RLResult.reject r) :
    (enforceRateLimit enabled ratePerSec burst identity now st).2 = st := by
  by_cases h1 : enabled = false
  · simp [enforceRateLimit, h1] at h
  · by_cases h2 : ratePerSec ≤ 0 ∨ burst ≤ 0
    · simp [enforceRateLimit, h1, h2] at h
    · by_cases h3 : refilledTokens ratePerSec burst identity now st < 1
      · simp [enforceRateLimit, h1, h2, h3]
      · simp [enforceRateLimit, h1, h2, h3] at h

unseal Rat.add Rat.sub Rat.mul Rat.inv in
theorem C10_reject_frame_witness :
    (enforceRateLimit true (mkRat 1 2) (mkRat 5 4) "k" 0 [("k", mkRat 1 4, 0)]).1 =
        RLResult.reject 1 ∧
      (enforceRateLimit true (mkRat 1 2) (mkRat 5 4) "k" 0 [("k", mkRat 1 4, 0)]).2 =
        [("k", mkRat 1 4, 0)] :=
  ⟨by decide, C10_reject_frame true (mkRat 1 2) (mkRat 5 4) "k" 0
    [("k", mkRat 1 4, 0)] 1 (by decide)⟩

unseal Rat.add Rat.sub Rat.mul Rat.inv in
/-- C8, counterexample.  The claimed rejection value
`retry_after = max(1, ceil((1 - tokens) / rate))` does not match the code:
Python `int()` truncates, so the code computes
`max(1, floor((1 - tokens) / rate))`.  With `rate = 0.5`, `burst = 1.25` and
a stored bucket holding `0.25` tokens (all exactly representable binary
floats, reachable by one admitted request after a fresh bucket), the code
returns `Retry-After = 1` while the claim demands `ceil(1.5) = 2`. -/
theorem C8_retry_after_counterexample :
    ¬ (∀ (enabled : Bool) (ratePerSec burst : ℚ) (identity : String) (now : ℚ)
        (st : RLState) (r : Nat),
        (enforceRateLimit enabled ratePerSec burst identity now st).1 =
          RLResult.reject r →
        r = max 1 (Int.toNat
          ⌈(1 - refilledTokens ratePerSec burst identity now st) / ratePerSec⌉)) := by
  intro hclaim
  have h := hclaim true (mkRat 1 2) (mkRat 5 4) "k" 0 [("k", mkRat 1 4, 0)] 1
    (by decide)
  revert h
  decide

/-- C8, amended.  Rate limiter rejection value: whenever an admission attempt
is rejected, the reported retry-after equals
`max(1, floor((1 - tokens) / rate))` seconds, where `tokens` is the refilled
token count; in particular it is at least one second. -/
theorem C8_retry_after_amended (enabled : Bool) (ratePerSec burst : ℚ)
    (identity : String) (now : ℚ) (st : RLState) (r : Nat)
    (h : (enforceRateLimit enabled ratePerSec burst identity now st).1 =
      RLResult.reject r) :
    r = max 1 (Int.toNat
        ⌊(1 - refilledTokens ratePerSec burst identity now st) / ratePerSec⌋) ∧
      1 ≤ r := by
  by_cases h1 : enabled = false
  · simp [enforceRateLimit, h1] at h
  · by_cases h2 : ratePerSec ≤ 0 ∨ burst ≤ 0
    · simp [enforceRateLimit, h1, h2] at h
    · by_cases h3 : refilledTokens ratePerSec burst identity now st < 1
      · simp [enforceRateLimit, h1, h2, h3] at h
        refine ⟨h.symm, ?_⟩
        rw [← h]
        exact le_max_left _ _
      · simp [enforceRateLimit, h1, h2, h3] at h

unseal Rat.add Rat.sub Rat.mul Rat.inv in
theorem C8_retry_after_amended_witness :
    (enforceRateLimit true (mkRat 1 2) (mkRat 5 4) "k" 0 [("k", mkRat 1 4, 0)]).1 =
        RLResult.reject 1 ∧
      (1 = max 1 (Int.toNat
          ⌊(1 - refilledTokens (mkRat 1 2) (mkRat 5 4) "k" 0 [("k", mkRat 1 4, 0)]) /
            mkRat 1 2⌋) ∧ 1 ≤ 1) :=
  ⟨by decide, C8_retry_after_amended true (mkRat 1 2) (mkRat 5 4) "k" 0
    [("k", mkRat 1 4, 0)] 1 (by decide)⟩

/-! ## Theorems: webhook ledger -/

theorem ledger_insert_mem (ledger : Ledger) (id : String) (ts : Int) :
    ((if MAX_PROCESSED_EVENTS < (ledger ++ [(id, ts)]).length then
        (ledger ++ [(id, ts)]).drop 1
      else ledger ++ [(id, ts)]).any (fun e => e.1 == id)) = true := by
  split
  · next h =>
    have hlen : 1 ≤ ledger.length := by
      simp only [List.length_append, List.length_cons, List.length_nil,
        MAX_PROCESSED_EVENTS] at h
      omega
    rw [List.drop_append_of_le_length hlen]
    simp
  · simp

/-- C6, counterexample.  A webhook request carrying a signature header while
no verification secret is configured is rejected before any business effect,
but with HTTP status 500 (`"Webhook secret not configured"`), not the claimed
503: the claim is refuted at a concrete request. -/
theorem C6_webhook_missing_secret_counterexample :
    ¬ (∀ (sigValid : Bool) (created now : Int) (eventId eventType : String)
        (ledger : Ledger),
        (stripeWebhook true false sigValid created now eventId eventType ledger).1 =
            WebhookOutcome.httpError 503 ∧
          (stripeWebhook true false sigValid created now eventId eventType
            ledger).2.2 = false) := by
  intro h
  have := (h true 0 0 "evt_1" "checkout.session.completed" []).1
  revert this
  decide

/-- C6, amended.  Webhook fail-closed on missing secret: every incoming
webhook request that carries a signature header is, when no verification
secret is configured, rejected with a 500 misconfiguration error (missing
server-side secret), the ledger is left unchanged, and the event's business
effect is not executed. -/
theorem C6_webhook_missing_secret_amended (sigValid : Bool) (created now : Int)
    (eventId eventType : String) (ledger : Ledger) :
    stripeWebhook true false sigValid created now eventId eventType ledger =
      (WebhookOutcome.httpError 500, ledger, false) := rfl

/-- C7.  Webhook idempotency: two verified, in-window notifications with the
same event identifier, the first arriving while the identifier is not in the
ledger, execute the business effect exactly once (on the first submission,
and only for the recognized event type); the second submission returns the
already-processed success outcome, does not re-execute the effect, and leaves
the ledger exactly as the first submission left it. -/
theorem C7_webhook_idempotency (created1 now1 created2 now2 : Int)
    (eventId eventType : String) (ledger : Ledger)
    (hw1 : (now1 - created1).natAbs ≤ 300)
    (hw2 : (now2 - created2).natAbs ≤ 300)
    (hfresh : ledger.any (fun e => e.1 == eventId) = false) :
    (stripeWebhook true true true created1 now1 eventId eventType ledger).1 =
        WebhookOutcome.ok false ∧
      (stripeWebhook true true true created1 now1 eventId eventType ledger).2.2 =
        (eventType == "checkout.session.completed") ∧
      (stripeWebhook true true true created2 now2 eventId eventType
          ((stripeWebhook true true true created1 now1 eventId eventType
            ledger).2.1)).1 = WebhookOutcome.ok true ∧
      (stripeWebhook true true true created2 now2 eventId eventType
          ((stripeWebhook true true true created1 now1 eventId eventType
            ledger).2.1)).2.1 =
        (stripeWebhook true true true created1 now1 eventId eventType
          ledger).2.1 ∧
      (stripeWebhook true true true created2 now2 eventId eventType
          ((stripeWebhook true true true created1 now1 eventId eventType
            ledger).2.1)).2.2 = false := by
  have hnot1 : ¬ 300 < (now1 - created1).natAbs := Nat.not_lt.mpr hw1
  have hnot2 : ¬ 300 < (now2 - created2).natAbs := Nat.not_lt.mpr hw2
  have hg : ¬ (true = false) := by decide
  have e1 : stripeWebhook true true true created1 now1 eventId eventType ledger =
      (WebhookOutcome.ok false,
        (if MAX_PROCESSED_EVENTS < (ledger ++ [(eventId, now1)]).length then
          (ledger ++ [(eventId, now1)]).drop 1
        else ledger ++ [(eventId, now1)]),
        (eventType == "checkout.session.completed")) := by
    unfold stripeWebhook
    rw [if_neg hg, if_neg hg, if_neg hg, if_neg hnot1, if_neg (by simp [hfresh])]
  have e2 : stripeWebhook true true true created2 now2 eventId eventType
      (if MAX_PROCESSED_EVENTS < (ledger ++ [(eventId, now1)]).length then
        (ledger ++ [(eventId, now1)]).drop 1
      else ledger ++ [(eventId, now1)]) =
      (WebhookOutcome.ok true,
        (if MAX_PROCESSED_EVENTS < (ledger ++ [(eventId, now1)]).length then
          (ledger ++ [(eventId, now1)]).drop 1
        else ledger ++ [(eventId, now1)]),
        false) := by
    unfold stripeWebhook
    rw [if_neg hg, if_neg hg, if_neg hg, if_neg hnot2,
      if_pos (ledger_insert_mem ledger eventId now1)]
  refine ⟨?_, ?_, ?_, ?_, ?_⟩ <;>
    simp only [e1, e2]

/-- Closed witness for `C7_webhook_idempotency` on a concrete event. -/
theorem C7_webhook_idempotency_witness :
    ((10 : Int) - 5).natAbs ≤ 300 ∧ ((250 : Int) - 40).natAbs ≤ 300 ∧
      (([] : Ledger).any (fun e => e.1 == "evt_7") = false) ∧
      ((stripeWebhook true true true 5 10 "evt_7" "checkout.session.completed"
          []).1 = WebhookOutcome.ok false ∧
        (stripeWebhook true true true 5 10 "evt_7" "checkout.session.completed"
          []).2.2 = ("checkout.session.completed" == "checkout.session.completed") ∧
        (stripeWebhook true true true 40 250 "evt_7" "checkout.session.completed"
            ((stripeWebhook true true true 5 10 "evt_7"
              "checkout.session.completed" []).2.1)).1 = WebhookOutcome.ok true ∧
        (stripeWebhook true true true 40 250 "evt_7" "checkout.session.completed"
            ((stripeWebhook true true true 5 10 "evt_7"
              "checkout.session.completed" []).2.1)).2.1 =
          (stripeWebhook true true true 5 10 "evt_7"
            "checkout.session.completed" []).2.1 ∧
        (stripeWebhook true true true 40 250 "evt_7" "checkout.session.completed"
            ((stripeWebhook true true true 5 10 "evt_7"
              "checkout.session.completed" []).2.1)).2.2 = false) :=
  ⟨by decide, by decide, by decide,
    C7_webhook_idempotency 5 10 40 250 "evt_7" "checkout.session.completed" []
      (by decide) (by decide) (by decide)⟩

/-! ## Theorems: resilient LLM client -/

theorem genLoop_ok_resets (oracle : Nat → AttemptResult) (s : Str) :
    ∀ (remaining idx fails : Nat),
      (genLoop oracle fails idx remaining).outcome = GenOutcome.ok s →
      (genLoop oracle fails idx remaining).failures = 0 := by
  intro remaining
  induction remaining with
  | zero =>
    intro idx fails h
    simp [genLoop] at h
  | succ rem ih =>
    intro idx fails h
    unfold genLoop at h ⊢
    cases horacle : oracle idx with
    | success s' => simp [horacle]
    | httpError code =>
      simp only [horacle] at h ⊢
      by_cases hr : code ∈ RETRYABLE_STATUS_CODES
      · simp only [hr, if_pos] at h ⊢
        by_cases hrem : rem = 0
        · simp [hrem] at h
        · simp only [hrem, if_neg, not_false_iff] at h ⊢
          exact ih (idx + 1) fails h
      · simp [hr] at h
    | timeout =>
      simp only [horacle] at h ⊢
      by_cases hrem : rem = 0
      · simp [hrem] at h
      · simp only [hrem, if_neg, not_false_iff] at h ⊢
        exact ih (idx + 1) fails h
    | otherError => simp [horacle] at h

/-- C5.  Circuit breaker: (1) when an upstream credential is configured and
the shared consecutive-failure counter is at or above the threshold at entry,
`generate` returns the degraded fallback (mock) response, leaves the counter
unchanged, and makes no network attempt; (2) whenever a call returns a real
upstream response (some network attempt succeeded), the consecutive-failure
counter is reset to zero. -/
theorem C5_circuit_breaker (apiKeyConfigured : Bool) (maxRetries fails : Nat)
    (oracle : Nat → AttemptResult) (prompt task : Str) :
    (apiKeyConfigured = true → circuitBreakerThreshold ≤ fails →
      llmGenerate apiKeyConfigured maxRetries fails oracle prompt task =
        ⟨.mock (mockResponse prompt task), fails, 0⟩) ∧
      ∀ s, (llmGenerate apiKeyConfigured maxRetries fails oracle prompt
          task).outcome = GenOutcome.ok s →
        (llmGenerate apiKeyConfigured maxRetries fails oracle prompt
          task).failures = 0 := by
  constructor
  · intro h1 h2
    subst h1
    simp [llmGenerate, h2]
  · intro s h
    cases apiKeyConfigured with
    | false => simp [llmGenerate] at h
    | true =>
      by_cases h2 : circuitBreakerThreshold ≤ fails
      · simp [llmGenerate, h2] at h
      · simp only [llmGenerate, h2, if_neg, if_pos, Bool.true_eq_false,
          not_false_iff] at h ⊢
        exact genLoop_ok_resets oracle s maxRetries 0 fails h

/-- Closed witness for `C5_circuit_breaker`: an open circuit skips the
network and returns the mock response; a successful attempt resets the
counter to zero. -/
theorem C5_circuit_breaker_witness :
    ((5 : Nat) ≤ 7) ∧
      llmGenerate true 3 7 (fun _ => AttemptResult.timeout) "p".toList "t".toList =
        ⟨.mock (mockResponse "p".toList "t".toList), 7, 0⟩ ∧
      (llmGenerate true 3 4 (fun _ => AttemptResult.success "r".toList) "p".toList
        "t".toList).failures = 0 :=
  ⟨by decide,
    (C5_circuit_breaker true 3 7 (fun _ => AttemptResult.timeout) "p".toList
      "t".toList).1 rfl (by decide),
    (C5_circuit_breaker true 3 4 (fun _ => AttemptResult.success "r".toList)
      "p".toList "t".toList).2 "r".toList (by decide)⟩

/-! ## Theorems: generate endpoint session clearing -/

/-- C2.  The claim that the Placeholder Store is cleared on every exit path
of the generate handler is right about the intent (the handler's docstring
says "Clear in-memory mappings" and the error arm is commented "Clear session
on error too"), but the code misses one path: when `reidentify` raises
`ValueError` (strict mode with a placeholder missing from the LLM response),
the `except ValueError` arm raises `HTTPException(400)` without calling
`clear_session()`.  Evaluating the handler on such a request: the rate limit
passes, the text `"a@b.cd"` yields one email match, strict mode is on, and
the LLM returns an empty string, so the handler exits with 400 and the
session NOT cleared. -/
theorem C2_clear_session_bug :
    generateSecuredoc none (fun _ => some []) true "a@b.cd".toList
      [⟨0, 6, Category.email⟩] (fun _ _ => "abcdef12".toList) =
      (Except.error 400, false) := by decide

/-! ## Theorems: strings, brackets and replacement -/

theorem bracketFree_append {a b : Str} (ha : BracketFree a) (hb : BracketFree b) :
    BracketFree (a ++ b) := by
  intro c hc
  rcases List.mem_append.mp hc with h | h
  · exact ha c h
  · exact hb c h

theorem bracketFree_of_sublist {a b : Str} (h : a.Sublist b) (hb : BracketFree b) :
    BracketFree a := fun c hc => hb c (h.mem hc)

theorem bracketFree_take {t : Str} (n : Nat) (h : BracketFree t) :
    BracketFree (t.take n) := bracketFree_of_sublist (List.take_sublist n t) h

theorem bracketFree_drop {t : Str} (n : Nat) (h : BracketFree t) :
    BracketFree (t.drop n) := bracketFree_of_sublist (List.drop_sublist n t) h

theorem bracketFree_sliceStr {t : Str} (a b : Nat) (h : BracketFree t) :
    BracketFree (sliceStr t a b) := bracketFree_drop a (bracketFree_take b h)

theorem wellBracketed_ne_nil {p : Str} (h : WellBracketed p) : p ≠ [] := by
  rcases h with ⟨mid, -, rfl⟩
  simp

theorem wellBracketed_head {p : Str} (h : WellBracketed p) :
    ∃ rest, p = '[' :: rest := by
  rcases h with ⟨mid, -, rfl⟩
  exact ⟨mid ++ [']'], rfl⟩

theorem wellBracketed_length {p : Str} (h : WellBracketed p) : 2 ≤ p.length := by
  rcases h with ⟨mid, -, rfl⟩
  simp only [List.length_cons, List.length_append, List.length_nil]
  omega

theorem bracketFree_ne_wellBracketed {o p : Str} (ho : BracketFree o)
    (hp : WellBracketed p) : o ≠ p := by
  rcases wellBracketed_head hp with ⟨rest, rfl⟩
  intro h
  subst h
  exact (ho '[' (by simp)).1 rfl

theorem wellBracketed_getElem_bracket {p : Str} (hp : WellBracketed p) :
    ∀ i (hi : i < p.length),
      (p[i] = ']' → i = p.length - 1) ∧ (p[i] = '[' → i = 0) := by
  rcases hp with ⟨mid, hmid, rfl⟩
  intro i hi
  cases i with
  | zero =>
    refine ⟨fun h => ?_, fun _ => rfl⟩
    simp at h
  | succ j =>
    simp only [List.length_cons, List.length_append, List.length_nil,
      Nat.add_succ_sub_one] at hi ⊢
    have hj : j < mid.length + 1 := by omega
    by_cases hjm : j < mid.length
    · have : ('[' :: (mid ++ [']']))[j + 1] = mid[j] := by
        simp only [List.getElem_cons_succ]
        exact List.getElem_append_left hjm
      rw [this]
      have h2 := hmid mid[j] (List.getElem_mem hjm)
      exact ⟨fun h => absurd h h2.2, fun h => absurd h h2.1⟩
    · have hje : j = mid.length := by omega
      subst hje
      have : ('[' :: (mid ++ [']']))[mid.length + 1] = ']' := by
        simp
      rw [this]
      exact ⟨fun _ => by omega, fun h => by simp at h⟩

theorem wellBracketed_getElem_last {p : Str} (hp : WellBracketed p) :
    ∀ (h : p.length - 1 < p.length), p[p.length - 1] = ']' := by
  rcases hp with ⟨mid, -, rfl⟩
  intro h
  simp only [List.length_cons, List.length_append, List.length_nil,
    Nat.add_succ_sub_one] at h ⊢
  have : mid.length + 1 - 1 + 1 = mid.length + 1 := by omega
  simp

theorem wellBracketed_eq_of_prefix_append {p tok rest : Str}
    (hp : WellBracketed p) (ht : WellBracketed tok) (h : p <+: tok ++ rest) :
    p = tok := by
  have hp2 := wellBracketed_length hp
  have ht2 := wellBracketed_length ht
  by_cases hlen : p.length ≤ tok.length
  · have hptok : p <+: tok := by
      rcases h with ⟨s, hs⟩
      have : p ++ (s.take (tok.length - p.length)) = tok := by
        have h1 : (p ++ s).take tok.length = tok := by
          rw [hs]
          exact List.take_left' rfl
        have h2 : tok.length = p.length + (tok.length - p.length) := by omega
        rw [h2, List.take_append] at h1
        exact h1
      exact ⟨s.take (tok.length - p.length), this⟩
    have hi : p.length - 1 < p.length := by omega
    have hlast : p[p.length - 1] = ']' := wellBracketed_getElem_last hp hi
    have := hptok.getElem hi
    rw [hlast] at this
    have hidx := (wellBracketed_getElem_bracket ht (p.length - 1)
      (Nat.lt_of_lt_of_le hi (hptok.length_le))).1 this.symm
    have : p.length = tok.length := by omega
    exact hptok.eq_of_length this
  · exfalso
    have hi : tok.length - 1 < tok.length := by omega
    have hlast : tok[tok.length - 1] = ']' := wellBracketed_getElem_last ht hi
    have hi2 : tok.length - 1 < (tok ++ rest).length := by
      simp only [List.length_append]
      omega
    have happ : (tok ++ rest)[tok.length - 1] = ']' := by
      rw [List.getElem_append_left hi]
      exact hlast
    have hi3 : tok.length - 1 < p.length := by omega
    have := h.getElem hi3
    rw [happ] at this
    have hidx := (wellBracketed_getElem_bracket hp (tok.length - 1) hi3).1 this
    omega

theorem replaceAllGo_congr (needle repl : Str) :
    ∀ (f1 : Nat) (f2 : Nat) (hay : Str), hay.length ≤ f1 → hay.length ≤ f2 →
      replaceAllGo needle repl f1 hay = replaceAllGo needle repl f2 hay := by
  intro f1
  induction f1 with
  | zero =>
    intro f2 hay h1 h2
    have : hay = [] := List.length_eq_zero.mp (Nat.le_zero.mp h1)
    subst this
    cases f2 <;> rfl
  | succ f1' ih =>
    intro f2 hay h1 h2
    cases hay with
    | nil => cases f2 <;> rfl
    | cons c rest =>
      cases f2 with
      | zero => simp at h2
      | succ f2' =>
        simp only [List.length_cons] at h1 h2
        simp only [replaceAllGo]
        split
        · congr 1
          exact ih f2' _ (by simp only [List.length_drop]; omega)
            (by simp only [List.length_drop]; omega)
        · congr 1
          exact ih f2' rest (by omega) (by omega)

theorem replaceAll_nil (needle repl : Str) : replaceAll [] needle repl = [] := by
  unfold replaceAll
  split
  · rfl
  · rfl

theorem replaceAll_skip {needle : Str} (repl : Str) (c : Char) (rest : Str)
    (h : ¬ needle <+: (c :: rest)) :
    replaceAll (c :: rest) needle repl = c :: replaceAll rest needle repl := by
  have hne : needle ≠ [] := by
    intro he
    exact h (he ▸ List.nil_prefix)
  unfold replaceAll
  simp only [hne, if_neg, not_false_iff]
  simp only [List.length_cons, replaceAllGo]
  have hpre : needle.isPrefixOf (c :: rest) = false := by
    rw [Bool.eq_false_iff]
    intro hb
    exact h (List.isPrefixOf_iff_prefix.mp hb)
  simp only [hpre, Bool.false_eq_true, if_neg, not_false_iff]

theorem replaceAll_match {needle : Str} (repl rest : Str) (hne : needle ≠ []) :
    replaceAll (needle ++ rest) needle repl =
      repl ++ replaceAll rest needle repl := by
  rcases List.exists_cons_of_ne_nil hne with ⟨nc, ntail, rfl⟩
  unfold replaceAll
  simp only [hne, if_neg, not_false_iff, reduceCtorEq]
  have hshape : (nc :: ntail) ++ rest = nc :: (ntail ++ rest) := rfl
  rw [hshape]
  simp only [replaceAllGo]
  have hpre : (nc :: ntail).isPrefixOf (nc :: (ntail ++ rest)) = true := by
    rw [List.isPrefixOf_iff_prefix]
    exact ⟨rest, by simp⟩
  simp only [hpre, if_pos]
  congr 1
  have hlen : (nc :: ntail).length - 1 = ntail.length := by simp
  rw [hlen, List.drop_left]
  exact replaceAllGo_congr _ repl _ _ rest
    (by simp only [List.length_append]; omega) (Nat.le_refl _)

theorem replaceAll_skip_bracketFree {needle : Str} (repl : Str) {s : Str}
    (rest : Str) (hs : BracketFree s) (hn : WellBracketed needle) :
    replaceAll (s ++ rest) needle repl = s ++ replaceAll rest needle repl := by
  induction s with
  | nil => simp
  | cons c s' ih =>
    have hcs : BracketFree s' := fun x hx => hs x (List.mem_cons_of_mem _ hx)
    have hnp : ¬ needle <+: (c :: (s' ++ rest)) := by
      intro hp
      rcases wellBracketed_head hn with ⟨nr, hnr⟩
      rw [hnr] at hp
      rcases hp with ⟨w, hw⟩
      have : c = '[' := by
        have := congrArg (fun l => l.head?) hw
        simpa using this.symm
      exact (hs c (by simp)).1 this
    rw [List.cons_append, replaceAll_skip repl c (s' ++ rest) hnp, ih hcs]
    rfl

theorem replaceAll_bracketFree {needle : Str} (repl : Str) {s : Str}
    (hs : BracketFree s) (hn : WellBracketed needle) :
    replaceAll s needle repl = s := by
  have := replaceAll_skip_bracketFree repl [] hs hn
  simpa [replaceAll_nil] using this

theorem replaceAll_tok {needle tok : Str} (repl rest : Str)
    (hn : WellBracketed needle) (ht : WellBracketed tok) (hne : tok ≠ needle) :
    replaceAll (tok ++ rest) needle repl = tok ++ replaceAll rest needle repl := by
  obtain ⟨mid, hmid, rfl⟩ := ht
  have hnp : ¬ needle <+: (('[' :: (mid ++ [']'])) ++ rest) := by
    intro hp
    exact hne (wellBracketed_eq_of_prefix_append hn ⟨mid, hmid, rfl⟩ hp).symm
  have hshape : ('[' :: (mid ++ [']'])) ++ rest = '[' :: (mid ++ (']' :: rest)) := by
    simp
  rw [hshape] at hnp ⊢
  rw [replaceAll_skip repl '[' _ hnp]
  rw [replaceAll_skip_bracketFree repl (']' :: rest) hmid hn]
  have hsk : ¬ needle <+: (']' :: rest) := by
    intro hp
    rcases wellBracketed_head hn with ⟨nr, hnr⟩
    rw [hnr] at hp
    rcases hp with ⟨w, hw⟩
    have : ']' = '[' := by
      have := congrArg (fun l => l.head?) hw
      simpa using this.symm
    simp at this
  rw [replaceAll_skip repl ']' rest hsk]
  simp

/-! ## Theorems: splice decompositions and restoration -/

theorem splice_append_tail (ps : List (Str × Str)) (x y : Str) :
    splice ps (x ++ y) = splice ps x ++ y := by
  induction ps with
  | nil => rfl
  | cons p ps' ih => simp [splice, ih]

theorem replaceAll_splice {needle : Str} (repl : Str) (hn : WellBracketed needle) :
    ∀ (ps : List (Str × Str)) (tail : Str),
      (∀ pr ∈ ps, BracketFree pr.1 ∧ (WellBracketed pr.2 ∨ BracketFree pr.2)) →
      BracketFree tail →
      replaceAll (splice ps tail) needle repl =
        splice (ps.map (fun pr => if pr.2 = needle then (pr.1, repl) else pr)) tail := by
  intro ps
  induction ps with
  | nil =>
    intro tail _ htail
    exact replaceAll_bracketFree repl htail hn
  | cons pr ps' ih =>
    intro tail hps htail
    have hseg := (hps pr (by simp)).1
    have htok := (hps pr (by simp)).2
    have hps' : ∀ q ∈ ps', BracketFree q.1 ∧ (WellBracketed q.2 ∨ BracketFree q.2) :=
      fun q hq => hps q (List.mem_cons_of_mem _ hq)
    show replaceAll (pr.1 ++ pr.2 ++ splice ps' tail) needle repl = _
    rw [List.append_assoc, replaceAll_skip_bracketFree repl _ hseg hn]
    by_cases he : pr.2 = needle
    · subst he
      rw [replaceAll_match repl _ (wellBracketed_ne_nil hn)]
      simp only [List.map_cons, if_pos, splice]
      rw [ih tail hps' htail, List.append_assoc]
    · rcases htok with hwb | hbf
      · rw [replaceAll_tok repl _ hn hwb he]
        simp only [List.map_cons, he, if_neg, not_false_iff, splice]
        rw [ih tail hps' htail, List.append_assoc]
      · rw [replaceAll_skip_bracketFree repl _ hbf hn]
        simp only [List.map_cons, he, if_neg, not_false_iff, splice]
        rw [ih tail hps' htail, List.append_assoc]

theorem foldl_replaceAll_splice :
    ∀ (rs : List (Str × Str)) (ps : List (Str × Str)) (tail : Str),
      (∀ r ∈ rs, WellBracketed r.1 ∧ BracketFree r.2) →
      (∀ pr ∈ ps, BracketFree pr.1 ∧ (WellBracketed pr.2 ∨ BracketFree pr.2)) →
      BracketFree tail →
      List.foldl (fun acc r => replaceAll acc r.1 r.2) (splice ps tail) rs =
        splice (ps.map (fun pr => (pr.1, tokAfter rs pr.2))) tail := by
  intro rs
  induction rs with
  | nil =>
    intro ps tail _ _ _
    simp [tokAfter]
  | cons r rs' ih =>
    intro ps tail hrs hps htail
    have hr := hrs r (by simp)
    have hrs' : ∀ q ∈ rs', WellBracketed q.1 ∧ BracketFree q.2 :=
      fun q hq => hrs q (List.mem_cons_of_mem _ hq)
    simp only [List.foldl_cons]
    rw [replaceAll_splice r.2 hr.1 ps tail hps htail]
    have hmapped : ∀ q ∈ ps.map (fun pr => if pr.2 = r.1 then (pr.1, r.2) else pr),
        BracketFree q.1 ∧ (WellBracketed q.2 ∨ BracketFree q.2) := by
      intro q hq
      rcases List.mem_map.mp hq with ⟨q0, hq0, rfl⟩
      have h0 := hps q0 hq0
      by_cases he : q0.2 = r.1
      · simp only [he, if_pos]
        exact ⟨h0.1, Or.inr hr.2⟩
      · simp only [he, if_neg, not_false_iff]
        exact h0
    rw [ih _ tail hrs' hmapped htail]
    rw [List.map_map]
    congr 1
    apply List.map_congr_left
    intro pr _
    simp only [Function.comp_apply]
    by_cases he : pr.2 = r.1
    · simp [he, tokAfter]
    · simp [he, tokAfter]

theorem containsSub_iff_infix (needle : Str) :
    ∀ (hay : Str), containsSub hay needle = true ↔ needle <:+: hay := by
  intro hay
  induction hay with
  | nil =>
    simp only [containsSub, Bool.or_false]
    rw [List.isPrefixOf_iff_prefix]
    constructor
    · intro h
      exact h.isInfix
    · intro h
      rw [List.infix_nil] at h
      subst h
      exact List.nil_prefix
  | cons c rest ih =>
    simp only [containsSub, Bool.or_eq_true]
    rw [List.isPrefixOf_iff_prefix, ih, List.infix_cons_iff]

theorem tok_infix_splice :
    ∀ (ps : List (Str × Str)) (tail : Str) (pr : Str × Str), pr ∈ ps →
      pr.2 <:+: splice ps tail := by
  intro ps
  induction ps with
  | nil => intro tail pr h; simp at h
  | cons q ps' ih =>
    intro tail pr h
    rcases List.mem_cons.mp h with rfl | h
    · exact ⟨pr.1, splice ps' tail, rfl⟩
    · have := ih tail pr h
      rcases this with ⟨s, t, hst⟩
      exact ⟨q.1 ++ q.2 ++ s, t, by simp only [splice, ← hst, List.append_assoc]⟩

/-! ## Theorems: the right-to-left substitution equals the splice form -/

theorem foldl_substStep_append :
    ∀ (ms : List AMatch) (A B : Str),
      (∀ m ∈ ms, m.start ≤ m.stop) →
      (∀ m ∈ ms, m.stop ≤ A.length) →
      DescDisjoint ms →
      List.foldl substStep (A ++ B) ms = List.foldl substStep A ms ++ B := by
  intro ms
  induction ms with
  | nil => intro A B _ _ _; rfl
  | cons m rest ih =>
    intro A B hwf hstop hdesc
    have hm1 : m.start ≤ m.stop := hwf m (by simp)
    have hm2 : m.stop ≤ A.length := hstop m (by simp)
    simp only [List.foldl_cons]
    have hstep : substStep (A ++ B) m = substStep A m ++ B := by
      unfold substStep
      rw [List.take_append_of_le_length (Nat.le_trans hm1 hm2),
        List.drop_append_of_le_length hm2]
      simp [List.append_assoc]
    rw [hstep]
    apply ih
    · exact fun x hx => hwf x (List.mem_cons_of_mem _ hx)
    · intro x hx
      have hx1 : x.stop ≤ m.start := (List.pairwise_cons.mp hdesc).1 x hx
      have : m.start ≤ (substStep A m).length := by
        unfold substStep
        simp only [List.length_append, List.length_take, List.length_drop]
        omega
      omega
    · exact (List.pairwise_cons.mp hdesc).2

theorem foldl_substStep_eq_maskOut :
    ∀ (ms : List AMatch) (t : Str),
      (∀ m ∈ ms, m.start ≤ m.stop) →
      (∀ m ∈ ms, m.stop ≤ t.length) →
      DescDisjoint ms →
      List.foldl substStep t ms = maskOut t ms := by
  intro ms
  induction ms with
  | nil => intro t _ _ _; rfl
  | cons m rest ih =>
    intro t hwf hstop hdesc
    have hm1 : m.start ≤ m.stop := hwf m (by simp)
    have hm2 : m.stop ≤ t.length := hstop m (by simp)
    have hrest : ∀ x ∈ rest, x.stop ≤ m.start :=
      (List.pairwise_cons.mp hdesc).1
    have hdesc' : DescDisjoint rest := (List.pairwise_cons.mp hdesc).2
    simp only [List.foldl_cons, maskOut]
    have hstep : substStep t m =
        t.take m.start ++ (m.placeholder ++ t.drop m.stop) := by
      unfold substStep
      simp [List.append_assoc]
    rw [hstep]
    rw [foldl_substStep_append rest (t.take m.start) (m.placeholder ++ t.drop m.stop)
      (fun x hx => hwf x (List.mem_cons_of_mem _ hx))
      (fun x hx => by
        have := hrest x hx
        simp only [List.length_take]
        omega) hdesc']
    rw [ih (t.take m.start)
      (fun x hx => hwf x (List.mem_cons_of_mem _ hx))
      (fun x hx => by
        have := hrest x hx
        simp only [List.length_take]
        omega) hdesc']
    simp [List.append_assoc]

theorem maskOut_eq_splice :
    ∀ (ms : List AMatch) (t : Str),
      maskOut t ms = splice (descPieces t ms).1 (descPieces t ms).2 := by
  intro ms
  induction ms with
  | nil => intro t; rfl
  | cons m rest ih =>
    intro t
    simp only [maskOut, descPieces]
    rw [ih (t.take m.start)]
    have : splice ((descPieces (t.take m.start) rest).1 ++
        [((descPieces (t.take m.start) rest).2, m.placeholder)]) (t.drop m.stop) =
        splice (descPieces (t.take m.start) rest).1
          ((descPieces (t.take m.start) rest).2 ++ m.placeholder ++ t.drop m.stop) := by
      generalize (descPieces (t.take m.start) rest).1 = ps
      generalize (descPieces (t.take m.start) rest).2 = tl
      induction ps with
      | nil => simp [splice]
      | cons q ps' ihq => simp [splice, ihq, List.append_assoc]
    rw [this, splice_append_tail, splice_append_tail]

theorem splice_concat (ps : List (Str × Str)) (a b tl : Str) :
    splice (ps ++ [(a, b)]) tl = splice ps (a ++ b ++ tl) := by
  induction ps with
  | nil => simp [splice]
  | cons q ps' ih => simp [splice, ih]

theorem sliceStr_take {t : Str} {s a b : Nat} (h : b ≤ s) :
    sliceStr (t.take s) a b = sliceStr t a b := by
  unfold sliceStr
  rw [List.take_take, Nat.min_eq_left h]

theorem sliceStr_full (t : Str) : sliceStr t 0 t.length = t := by
  unfold sliceStr
  simp

theorem sliceStr_drop (t : Str) (s : Nat) : t.drop s = sliceStr t s t.length := by
  unfold sliceStr
  simp

theorem take_append_sliceStr {t : Str} {a b : Nat} (h : a ≤ b) :
    t.take a ++ sliceStr t a b = t.take b := by
  unfold sliceStr
  have h1 : (t.take b).take a = t.take a := by
    rw [List.take_take, Nat.min_eq_left h]
  conv_lhs => rw [← h1]
  exact List.take_append_drop a (t.take b)

theorem take_sliceStr_drop {t : Str} {a b : Nat} (h : a ≤ b) :
    t.take a ++ sliceStr t a b ++ t.drop b = t := by
  rw [List.append_assoc, ← List.append_assoc (t.take a), take_append_sliceStr h]
  simp [List.take_append_drop]

theorem descPieces_bracketFree :
    ∀ (ms : List AMatch) (t : Str), BracketFree t →
      (∀ pr ∈ (descPieces t ms).1, BracketFree pr.1) ∧
        BracketFree (descPieces t ms).2 := by
  intro ms
  induction ms with
  | nil => intro t ht; exact ⟨fun pr h => by simp [descPieces] at h, ht⟩
  | cons m rest ih =>
    intro t ht
    have htake := bracketFree_take (t := t) m.start ht
    have hih := ih (t.take m.start) htake
    constructor
    · intro pr hpr
      simp only [descPieces, List.mem_append, List.mem_singleton] at hpr
      rcases hpr with h | rfl
      · exact hih.1 pr h
      · exact hih.2
    · exact bracketFree_drop m.stop ht

theorem descPieces_tokens :
    ∀ (ms : List AMatch) (t : Str),
      (descPieces t ms).1.map (fun pr => pr.2) =
        (ms.map (fun m => m.placeholder)).reverse := by
  intro ms
  induction ms with
  | nil => intro t; rfl
  | cons m rest ih =>
    intro t
    simp only [descPieces, List.map_append, List.map_cons, List.map_nil,
      List.reverse_cons, ih]

theorem descPieces_reassemble (g : Str → Str) :
    ∀ (ms : List AMatch) (t : Str),
      (∀ m ∈ ms, m.start ≤ m.stop) →
      (∀ m ∈ ms, m.stop ≤ t.length) →
      DescDisjoint ms →
      (∀ m ∈ ms, g m.placeholder = sliceStr t m.start m.stop) →
      splice ((descPieces t ms).1.map (fun pr => (pr.1, g pr.2)))
        (descPieces t ms).2 = t := by
  intro ms
  induction ms with
  | nil => intro t _ _ _ _; rfl
  | cons m rest ih =>
    intro t hwf hstop hdesc hg
    have hm1 : m.start ≤ m.stop := hwf m (by simp)
    have hm2 : m.stop ≤ t.length := hstop m (by simp)
    have hrest : ∀ x ∈ rest, x.stop ≤ m.start := (List.pairwise_cons.mp hdesc).1
    have hih := ih (t.take m.start)
      (fun x hx => hwf x (List.mem_cons_of_mem _ hx))
      (fun x hx => by
        have := hrest x hx
        simp only [List.length_take]
        omega)
      ((List.pairwise_cons.mp hdesc).2)
      (fun x hx => by
        rw [hg x (List.mem_cons_of_mem _ hx)]
        exact (sliceStr_take (hrest x hx)).symm)
    simp only [descPieces, List.map_append, List.map_cons, List.map_nil]
    rw [splice_concat, splice_append_tail, splice_append_tail, hih,
      hg m (by simp)]
    exact take_sliceStr_drop hm1

theorem descPieces_positions :
    ∀ (ms : List AMatch) (t : Str),
      (∀ m ∈ ms, m.start ≤ m.stop) →
      (∀ m ∈ ms, m.stop ≤ t.length) →
      DescDisjoint ms →
      ∀ seg ∈ (descPieces t ms).1.map (fun pr => pr.1) ++ [(descPieces t ms).2],
        ∃ a b, a ≤ b ∧ b ≤ t.length ∧ seg = sliceStr t a b ∧
          ∀ m ∈ ms, m.stop ≤ a ∨ b ≤ m.start := by
  intro ms
  induction ms with
  | nil =>
    intro t _ _ _ seg hseg
    simp only [descPieces, List.map_nil, List.nil_append, List.mem_singleton] at hseg
    rw [hseg]
    exact ⟨0, t.length, Nat.zero_le _, Nat.le_refl _, (sliceStr_full t).symm,
      fun m hm => by simp at hm⟩
  | cons m rest ih =>
    intro t hwf hstop hdesc seg hseg
    have hm1 : m.start ≤ m.stop := hwf m (by simp)
    have hm2 : m.stop ≤ t.length := hstop m (by simp)
    have hrest : ∀ x ∈ rest, x.stop ≤ m.start := (List.pairwise_cons.mp hdesc).1
    have htlen : (t.take m.start).length = m.start := by
      simp only [List.length_take]
      omega
    have hih := ih (t.take m.start)
      (fun x hx => hwf x (List.mem_cons_of_mem _ hx))
      (fun x hx => by rw [htlen]; exact hrest x hx)
      ((List.pairwise_cons.mp hdesc).2)
    simp only [descPieces, List.map_append, List.map_cons, List.map_nil,
      List.mem_append, List.mem_singleton] at hseg
    rcases hseg with (h | rfl) | rfl
    · rcases hih seg (by simp [h]) with ⟨a, b, hab, hbl, hslice, hdisj⟩
      rw [htlen] at hbl
      refine ⟨a, b, hab, by omega, ?_, ?_⟩
      · rw [hslice]
        exact sliceStr_take hbl
      · intro x hx
        rcases List.mem_cons.mp hx with rfl | hx
        · right
          omega
        · exact hdisj x hx
    · rcases hih (descPieces (t.take m.start) rest).2 (by simp) with
        ⟨a, b, hab, hbl, hslice, hdisj⟩
      rw [htlen] at hbl
      refine ⟨a, b, hab, by omega, ?_, ?_⟩
      · rw [hslice]
        exact sliceStr_take hbl
      · intro x hx
        rcases List.mem_cons.mp hx with rfl | hx
        · right
          omega
        · exact hdisj x hx
    · refine ⟨m.stop, t.length, hm2, Nat.le_refl _, sliceStr_drop t m.stop, ?_⟩
      intro x hx
      rcases List.mem_cons.mp hx with rfl | hx
      · left
        exact Nat.le_refl _
      · left
        have := hrest x hx
        omega

/-! ## Theorems: the stable sort -/

theorem insertLe_perm (le : α → α → Bool) (a : α) :
    ∀ (l : List α), (insertLe le a l).Perm (a :: l) := by
  intro l
  induction l with
  | nil => exact List.Perm.refl _
  | cons b l' ih =>
    unfold insertLe
    split
    · exact List.Perm.refl _
    · exact (List.Perm.cons b ih).trans (List.Perm.swap a b l')

theorem sortBy_perm (le : α → α → Bool) :
    ∀ (l : List α), (sortBy le l).Perm l := by
  intro l
  induction l with
  | nil => exact List.Perm.refl _
  | cons a l' ih =>
    exact (insertLe_perm le a (sortBy le l')).trans (List.Perm.cons a ih)

theorem mem_insertLe {le : α → α → Bool} {a x : α} {l : List α}
    (h : x ∈ insertLe le a l) : x = a ∨ x ∈ l :=
  List.mem_cons.mp ((insertLe_perm le a l).mem_iff.mp h)

theorem insertLe_pairwise {le : α → α → Bool}
    (htot : ∀ a b, le a b = true ∨ le b a = true)
    (htrans : ∀ a b c, le a b = true → le b c = true → le a c = true)
    (a : α) {l : List α} (hl : List.Pairwise (fun x y => le x y = true) l) :
    List.Pairwise (fun x y => le x y = true) (insertLe le a l) := by
  induction l with
  | nil => simp [insertLe]
  | cons b l' ih =>
    unfold insertLe
    rcases List.pairwise_cons.mp hl with ⟨hb, hl'⟩
    split
    · next hab =>
      refine List.pairwise_cons.mpr ⟨?_, hl⟩
      intro x hx
      rcases List.mem_cons.mp hx with rfl | hx
      · exact hab
      · exact htrans a b x hab (hb x hx)
    · next hab =>
      have hba : le b a = true := by
        rcases htot a b with h | h
        · exact absurd h hab
        · exact h
      refine List.pairwise_cons.mpr ⟨?_, ih hl'⟩
      intro x hx
      rcases mem_insertLe hx with rfl | hx
      · exact hba
      · exact hb x hx

theorem sortBy_pairwise {le : α → α → Bool}
    (htot : ∀ a b, le a b = true ∨ le b a = true)
    (htrans : ∀ a b c, le a b = true → le b c = true → le a c = true) :
    ∀ (l : List α), List.Pairwise (fun x y => le x y = true) (sortBy le l) := by
  intro l
  induction l with
  | nil => simp [sortBy]
  | cons a l' ih => exact insertLe_pairwise htot htrans a ih

/-! ## Theorems: decimal digit strings (Python `str(counter)`) -/

theorem toDigitsCore_append (b : Nat) :
    ∀ (f n : Nat) (ds : List Char),
      Nat.toDigitsCore b f n ds = Nat.toDigitsCore b f n [] ++ ds := by
  intro f
  induction f with
  | zero => intro n ds; rfl
  | succ f' ih =>
    intro n ds
    simp only [Nat.toDigitsCore]
    split
    · rfl
    · rw [ih (n / b) [Nat.digitChar (n % b)], ih (n / b) (Nat.digitChar (n % b) :: ds)]
      simp

theorem toDigitsCore_fuel :
    ∀ (n : Nat), ∀ (f1 f2 : Nat), n < f1 → n < f2 →
      Nat.toDigitsCore 10 f1 n [] = Nat.toDigitsCore 10 f2 n [] := by
  intro n
  induction n using Nat.strong_induction_on with
  | _ n ih =>
    intro f1 f2 h1 h2
    cases f1 with
    | zero => omega
    | succ g1 =>
      cases f2 with
      | zero => omega
      | succ g2 =>
        simp only [Nat.toDigitsCore]
        split
        · rfl
        · next hdiv =>
          rw [toDigitsCore_append 10 g1, toDigitsCore_append 10 g2]
          have hlt : n / 10 < n := Nat.div_lt_self (by omega) (by omega)
          rw [ih (n / 10) hlt g1 g2 (by omega) (by omega)]

theorem toDigitsCore_succ (f n : Nat) (ds : List Char) :
    Nat.toDigitsCore 10 (f + 1) n ds =
      if n / 10 = 0 then Nat.digitChar (n % 10) :: ds
      else Nat.toDigitsCore 10 f (n / 10) (Nat.digitChar (n % 10) :: ds) := rfl

theorem toDigits_lt10 {n : Nat} (h : n < 10) :
    Nat.toDigits 10 n = [Nat.digitChar n] := by
  unfold Nat.toDigits
  rw [toDigitsCore_succ, if_pos (by omega : n / 10 = 0), Nat.mod_eq_of_lt h]

theorem toDigits_ge10 {n : Nat} (h : 10 ≤ n) :
    Nat.toDigits 10 n = Nat.toDigits 10 (n / 10) ++ [Nat.digitChar (n % 10)] := by
  have hdiv : ¬ n / 10 = 0 := by omega
  unfold Nat.toDigits
  rw [toDigitsCore_succ, if_neg hdiv, toDigitsCore_append]
  congr 1
  exact toDigitsCore_fuel (n / 10) n (n / 10 + 1) (by omega) (by omega)

theorem toDigits_ne_nil (n : Nat) : Nat.toDigits 10 n ≠ [] := by
  by_cases h : n < 10
  · rw [toDigits_lt10 h]
    simp
  · rw [toDigits_ge10 (by omega)]
    simp

theorem digitChar_mem_digits {k : Nat} (h : k < 10) :
    Nat.digitChar k ∈ "0123456789".toList := by
  have : ∀ j : Fin 10, Nat.digitChar j.val ∈ "0123456789".toList := by decide
  exact this ⟨k, h⟩

theorem toDigits_mem_digits :
    ∀ (n : Nat), ∀ c ∈ Nat.toDigits 10 n, c ∈ "0123456789".toList := by
  intro n
  induction n using Nat.strong_induction_on with
  | _ n ih =>
    intro c hc
    by_cases h : n < 10
    · rw [toDigits_lt10 h] at hc
      rcases List.mem_singleton.mp hc with rfl
      exact digitChar_mem_digits h
    · rw [toDigits_ge10 (by omega)] at hc
      rcases List.mem_append.mp hc with hc | hc
      · exact ih (n / 10) (Nat.div_lt_self (by omega) (by omega)) c hc
      · rcases List.mem_singleton.mp hc with rfl
        exact digitChar_mem_digits (Nat.mod_lt n (by omega))

theorem digitChar_inj {a b : Nat} (ha : a < 10) (hb : b < 10)
    (h : Nat.digitChar a = Nat.digitChar b) : a = b := by
  have key : ∀ x : Fin 10, ∀ y : Fin 10,
      Nat.digitChar x.val = Nat.digitChar y.val → x = y := by decide
  have := key ⟨a, ha⟩ ⟨b, hb⟩ h
  exact congrArg Fin.val this

theorem toDigits_inj :
    ∀ (m n : Nat), Nat.toDigits 10 m = Nat.toDigits 10 n → m = n := by
  intro m
  induction m using Nat.strong_induction_on with
  | _ m ih =>
    intro n h
    by_cases hm : m < 10
    · by_cases hn : n < 10
      · rw [toDigits_lt10 hm, toDigits_lt10 hn] at h
        exact digitChar_inj hm hn (List.singleton_injective h)
      · rw [toDigits_lt10 hm, toDigits_ge10 (by omega)] at h
        have hlen := congrArg List.length h
        simp only [List.length_append, List.length_singleton] at hlen
        have hpos : 0 < (Nat.toDigits 10 (n / 10)).length :=
          List.length_pos.mpr (toDigits_ne_nil (n / 10))
        omega
    · by_cases hn : n < 10
      · rw [toDigits_ge10 (by omega), toDigits_lt10 hn] at h
        have hlen := congrArg List.length h
        simp only [List.length_append, List.length_singleton] at hlen
        have hpos : 0 < (Nat.toDigits 10 (m / 10)).length :=
          List.length_pos.mpr (toDigits_ne_nil (m / 10))
        omega
      · rw [toDigits_ge10 (by omega : 10 ≤ m), toDigits_ge10 (by omega : 10 ≤ n)] at h
        have hsplit := List.append_inj' h (by simp)
        have h1 : m / 10 = n / 10 :=
          ih (m / 10) (Nat.div_lt_self (by omega) (by omega)) (n / 10) hsplit.1
        have h2 : m % 10 = n % 10 :=
          digitChar_inj (Nat.mod_lt m (by omega)) (Nat.mod_lt n (by omega))
            (List.singleton_injective hsplit.2)
        omega

/-! ## Theorems: placeholder minting -/

theorem upperStr_bracketFree : ∀ c : Category, BracketFree c.upperStr := by
  intro c
  cases c <;> decide

theorem hexChars_bracketFree : ∀ ch ∈ hexChars, ch ≠ '[' ∧ ch ≠ ']' := by decide

theorem digits_bracketFree :
    ∀ ch ∈ "0123456789".toList, ch ≠ '[' ∧ ch ≠ ']' := by decide

theorem placeholderCand_wellBracketed {cat : Category} {digest : Str}
    (hd : ∀ ch ∈ digest, ch ∈ hexChars) :
    ∀ k, WellBracketed (placeholderCand cat digest k) := by
  have hdig : BracketFree digest := fun ch hch => hexChars_bracketFree ch (hd ch hch)
  intro k
  cases k with
  | zero =>
    refine ⟨cat.upperStr ++ '_' :: digest, ?_, ?_⟩
    · intro ch hch
      simp only [List.mem_append, List.mem_cons] at hch
      rcases hch with h | rfl | h
      · exact upperStr_bracketFree cat ch h
      · decide
      · exact hdig ch h
    · simp [placeholderCand, placeholderBase, List.append_assoc]
  | succ j =>
    refine ⟨cat.upperStr ++ '_' :: digest ++ '_' :: Nat.toDigits 10 (j + 1), ?_, ?_⟩
    · intro ch hch
      simp only [List.mem_append, List.mem_cons] at hch
      rcases hch with (h | rfl | h) | rfl | h
      · exact upperStr_bracketFree cat ch h
      · decide
      · exact hdig ch h
      · decide
      · exact digits_bracketFree ch (toDigits_mem_digits (j + 1) ch h)
    · simp [placeholderCand, List.append_assoc]

theorem placeholderCand_inj (cat : Category) (digest : Str) :
    Function.Injective (placeholderCand cat digest) := by
  intro i j h
  cases i with
  | zero =>
    cases j with
    | zero => rfl
    | succ j' =>
      exfalso
      have hlen := congrArg List.length h
      simp only [placeholderCand, placeholderBase, List.length_cons,
        List.length_append, List.length_singleton] at hlen
      have hpos : 0 < (Nat.toDigits 10 (j' + 1)).length :=
        List.length_pos.mpr (toDigits_ne_nil (j' + 1))
      omega
  | succ i' =>
    cases j with
    | zero =>
      exfalso
      have hlen := congrArg List.length h
      simp only [placeholderCand, placeholderBase, List.length_cons,
        List.length_append, List.length_singleton] at hlen
      have hpos : 0 < (Nat.toDigits 10 (i' + 1)).length :=
        List.length_pos.mpr (toDigits_ne_nil (i' + 1))
      omega
    | succ j' =>
      simp only [placeholderCand, List.cons.injEq, true_and] at h
      have h2 := List.append_cancel_right h
      have h3 := List.append_cancel_left h2
      simp only [List.cons.injEq, true_and] at h3
      have := toDigits_inj (i' + 1) (j' + 1) h3
      omega

theorem mintLoop_not_mem (used : List Str) (cand : Nat → Str) :
    ∀ (fuel k : Nat), (∃ i < fuel, cand (k + i) ∉ used) →
      mintLoop used cand k fuel ∉ used := by
  intro fuel
  induction fuel with
  | zero =>
    intro k h
    rcases h with ⟨i, hi, -⟩
    omega
  | succ f ih =>
    intro k h
    unfold mintLoop
    split
    · next hmem =>
      apply ih
      rcases h with ⟨i, hi, hfree⟩
      cases i with
      | zero => exact absurd hmem (by simpa using hfree)
      | succ i' =>
        refine ⟨i', by omega, ?_⟩
        have : k + 1 + i' = k + (i' + 1) := by omega
        rw [this]
        exact hfree
    · next hmem => exact hmem

theorem exists_fresh_cand (used : List Str) (cand : Nat → Str)
    (hinj : Function.Injective cand) :
    ∃ i < used.length + 1, cand (0 + i) ∉ used := by
  by_contra hc
  push_neg at hc
  have hall : ∀ i < used.length + 1, cand i ∈ used := by
    intro i hi
    have := hc i hi
    simpa using this
  have hnodup : ((List.range (used.length + 1)).map cand).Nodup :=
    (List.nodup_range _).map hinj
  have hsub : (List.range (used.length + 1)).map cand ⊆ used := by
    intro x hx
    rcases List.mem_map.mp hx with ⟨i, hi, rfl⟩
    exact hall i (List.mem_range.mp hi)
  have := (hnodup.subperm hsub).length_le
  simp at this

theorem mint_not_mem (used : List Str) (cat : Category) (digest : Str) :
    mint used cat digest ∉ used :=
  mintLoop_not_mem used (placeholderCand cat digest) (used.length + 1) 0
    (exists_fresh_cand used _ (placeholderCand_inj cat digest))

theorem mintLoop_is_cand (used : List Str) (cand : Nat → Str) :
    ∀ (fuel k : Nat), ∃ j, mintLoop used cand k fuel = cand j := by
  intro fuel
  induction fuel with
  | zero => intro k; exact ⟨k, rfl⟩
  | succ f ih =>
    intro k
    unfold mintLoop
    split
    · exact ih (k + 1)
    · exact ⟨k, rfl⟩

theorem mint_wellBracketed (used : List Str) (cat : Category) {digest : Str}
    (hd : ∀ ch ∈ digest, ch ∈ hexChars) :
    WellBracketed (mint used cat digest) := by
  rcases mintLoop_is_cand used (placeholderCand cat digest) (used.length + 1) 0
    with ⟨j, hj⟩
  rw [mint, hj]
  exact placeholderCand_wellBracketed hd j

/-! ## Theorems: the collection loop of `anonymize` -/

theorem collectGo_span_mem (text : Str) (dig : Str → Category → Str) :
    ∀ (ms : List RawMatch) (used : List Str) (a : AMatch),
      a ∈ collectGo text dig used ms →
      ∃ m ∈ ms, a.start = m.start ∧ a.stop = m.stop := by
  intro ms
  induction ms with
  | nil => intro used a ha; simp [collectGo] at ha
  | cons m rest ih =>
    intro used a ha
    rcases List.mem_cons.mp ha with rfl | ha
    · exact ⟨m, by simp, rfl, rfl⟩
    · rcases ih _ a ha with ⟨m', hm', h1, h2⟩
      exact ⟨m', List.mem_cons_of_mem _ hm', h1, h2⟩

theorem collectGo_starts (text : Str) (dig : Str → Category → Str) :
    ∀ (ms : List RawMatch) (used : List Str),
      (collectGo text dig used ms).map (fun a => (a.start, a.stop)) =
        ms.map (fun m => (m.start, m.stop)) := by
  intro ms
  induction ms with
  | nil => intro used; rfl
  | cons m rest ih =>
    intro used
    simp only [collectGo, List.map_cons, ih]

theorem collectGo_original (text : Str) (dig : Str → Category → Str) :
    ∀ (ms : List RawMatch) (used : List Str) (a : AMatch),
      a ∈ collectGo text dig used ms →
      a.original = sliceStr text a.start a.stop := by
  intro ms
  induction ms with
  | nil => intro used a ha; simp [collectGo] at ha
  | cons m rest ih =>
    intro used a ha
    rcases List.mem_cons.mp ha with rfl | ha
    · rfl
    · exact ih _ a ha

theorem collectGo_wellBracketed (text : Str) {dig : Str → Category → Str}
    (hd : GoodDigest dig) :
    ∀ (ms : List RawMatch) (used : List Str) (a : AMatch),
      a ∈ collectGo text dig used ms → WellBracketed a.placeholder := by
  intro ms
  induction ms with
  | nil => intro used a ha; simp [collectGo] at ha
  | cons m rest ih =>
    intro used a ha
    rcases List.mem_cons.mp ha with rfl | ha
    · exact mint_wellBracketed used m.category
        ((hd (sliceStr text m.start m.stop) m.category).2)
    · exact ih _ a ha

theorem collectGo_nodup (text : Str) (dig : Str → Category → Str) :
    ∀ (ms : List RawMatch) (used : List Str),
      ((collectGo text dig used ms).map (fun a => a.placeholder)).Nodup ∧
        ∀ a ∈ collectGo text dig used ms, a.placeholder ∉ used := by
  intro ms
  induction ms with
  | nil => intro used; exact ⟨List.nodup_nil, fun a ha => by simp [collectGo] at ha⟩
  | cons m rest ih =>
    intro used
    have hmint := mint_not_mem used m.category
      (dig (sliceStr text m.start m.stop) m.category)
    rcases ih (mint used m.category (dig (sliceStr text m.start m.stop) m.category)
      :: used) with ⟨hnd, hfresh⟩
    constructor
    · simp only [collectGo, List.map_cons, List.nodup_cons]
      refine ⟨?_, hnd⟩
      intro hmem
      rcases List.mem_map.mp hmem with ⟨a, ha, hap⟩
      have := hfresh a ha
      rw [hap] at this
      exact this (by simp)
    · intro a ha
      rcases List.mem_cons.mp ha with rfl | ha
      · exact hmint
      · have := hfresh a ha
        intro hmem
        exact this (List.mem_cons_of_mem _ hmem)

/-! ## Theorems: the token-update function -/

theorem tokAfter_bracketFree {t : Str} (ht : BracketFree t) :
    ∀ (rs : List (Str × Str)), (∀ r ∈ rs, WellBracketed r.1) →
      tokAfter rs t = t := by
  intro rs
  induction rs with
  | nil => intro _; rfl
  | cons r rs' ih =>
    intro hrs
    have hne : t ≠ r.1 := bracketFree_ne_wellBracketed ht (hrs r (by simp))
    simp only [tokAfter, List.foldl_cons, hne, if_neg, not_false_iff]
    exact ih (fun q hq => hrs q (List.mem_cons_of_mem _ hq))

theorem tokAfter_eq {P O : Str} (hO : BracketFree O) :
    ∀ (rs : List (Str × Str)),
      (P, O) ∈ rs →
      (∀ r ∈ rs, r.1 = P → r.2 = O) →
      (∀ r ∈ rs, WellBracketed r.1) →
      tokAfter rs P = O := by
  intro rs
  induction rs with
  | nil => intro h _ _; simp at h
  | cons r rs' ih =>
    intro hmem huniq hkeys
    by_cases he : P = r.1
    · have hr2 : r.2 = O := huniq r (by simp) he.symm
      simp only [tokAfter, List.foldl_cons, he, if_pos, hr2]
      exact tokAfter_bracketFree hO rs' (fun q hq => hkeys q (List.mem_cons_of_mem _ hq))
    · simp only [tokAfter, List.foldl_cons, he, if_neg, not_false_iff]
      have hmem' : (P, O) ∈ rs' := by
        rcases List.mem_cons.mp hmem with h | h
        · exact absurd (congrArg Prod.fst h) he
        · exact h
      exact ih hmem' (fun q hq h => huniq q (List.mem_cons_of_mem _ hq) h)
        (fun q hq => hkeys q (List.mem_cons_of_mem _ hq))

/-! ## Theorems: placeholder uniqueness (C4) -/

/-- C4.  Placeholder uniqueness: within one anonymization session the minted
placeholders (the keys of the returned mapping) are pairwise distinct, and no
minted placeholder is a proper prefix of another (any placeholder that is a
prefix of another is equal to it), so length-descending replacement during
re-identification cannot partially overwrite one placeholder with another. -/
theorem C4_placeholder_uniqueness (text : Str) (ms : List RawMatch)
    (digestFn : Str → Category → Str) (hd : GoodDigest digestFn) :
    ((anonymize text ms digestFn).2.map (fun pr => pr.1)).Nodup ∧
      ∀ p ∈ (anonymize text ms digestFn).2.map (fun pr => pr.1),
        ∀ q ∈ (anonymize text ms digestFn).2.map (fun pr => pr.1),
          p <+: q → p = q := by
  have hmaps : (anonymize text ms digestFn).2.map (fun pr => pr.1) =
      (collectGo text digestFn [] ms).map (fun a => a.placeholder) := by
    show ((collectGo text digestFn [] ms).map
      (fun a => (a.placeholder, a.original))).map (fun pr => pr.1) = _
    rw [List.map_map]
    rfl
  rw [hmaps]
  constructor
  · exact (collectGo_nodup text digestFn ms []).1
  · intro p hp q hq hpre
    rcases List.mem_map.mp hp with ⟨a, ha, rfl⟩
    rcases List.mem_map.mp hq with ⟨b, hb, rfl⟩
    have hwa := collectGo_wellBracketed text hd ms [] a ha
    have hwb := collectGo_wellBracketed text hd ms [] b hb
    exact wellBracketed_eq_of_prefix_append hwa hwb
      (by rw [List.append_nil]; exact hpre)

/-- Closed witness for `C4_placeholder_uniqueness` on a concrete text with
two detected spans. -/
theorem C4_placeholder_uniqueness_witness :
    GoodDigest (fun _ _ => "abcdef12".toList) ∧
      (((anonymize "31.12.2025 a@b.cd".toList
          [⟨0, 10, Category.date⟩, ⟨11, 17, Category.email⟩]
          (fun _ _ => "abcdef12".toList)).2.map (fun pr => pr.1)).Nodup ∧
        ∀ p ∈ (anonymize "31.12.2025 a@b.cd".toList
            [⟨0, 10, Category.date⟩, ⟨11, 17, Category.email⟩]
            (fun _ _ => "abcdef12".toList)).2.map (fun pr => pr.1),
          ∀ q ∈ (anonymize "31.12.2025 a@b.cd".toList
              [⟨0, 10, Category.date⟩, ⟨11, 17, Category.email⟩]
              (fun _ _ => "abcdef12".toList)).2.map (fun pr => pr.1),
            p <+: q → p = q) :=
  ⟨by
      intro o c
      constructor
      · rfl
      · show ∀ ch ∈ "abcdef12".toList, ch ∈ hexChars
        decide,
    C4_placeholder_uniqueness "31.12.2025 a@b.cd".toList
      [⟨0, 10, Category.date⟩, ⟨11, 17, Category.email⟩]
      (fun _ _ => "abcdef12".toList)
      (by
        intro o c
        constructor
        · rfl
        · show ∀ ch ∈ "abcdef12".toList, ch ∈ hexChars
          decide)⟩

/-! ## Theorems: the round trip (C1) -/

/-- C1, amended.  Round-trip: for every input whose detected spans are
pairwise non-overlapping (across all categories) and whose text contains no
square-bracket characters, if the outbound call returns the masked text
unchanged then `reidentify(anonymize(text))` (in either strict or non-strict
mode) is pointwise equal to the original input text. -/
theorem C1_roundtrip_amended (text : Str) (ms : List RawMatch)
    (digestFn : Str → Category → Str) (strict : Bool)
    (hdet : DetectionWF text ms) (hdisj : PairwiseDisjoint ms)
    (htext : BracketFree text) (hd : GoodDigest digestFn) :
    reidentify strict (anonymize text ms digestFn).1
      (anonymize text ms digestFn).2 = Except.ok text := by
  set ams := collectGo text digestFn [] ms with hamsdef
  set leA : AMatch → AMatch → Bool := fun a b => decide (b.start ≤ a.start)
    with hleA
  set sorted := sortBy leA ams with hsorted
  set maps := ams.map (fun a => (a.placeholder, a.original)) with hmapsdef
  have h1 : (anonymize text ms digestFn).1 = sorted.foldl substStep text := rfl
  have h2 : (anonymize text ms digestFn).2 = maps := rfl
  have hspan : ∀ a ∈ ams, a.start < a.stop ∧ a.stop ≤ text.length := by
    intro a ha
    rcases collectGo_span_mem text digestFn ms [] a ha with ⟨m, hm, e1, e2⟩
    rw [e1, e2]
    exact hdet.1 m hm
  have horig : ∀ a ∈ ams, a.original = sliceStr text a.start a.stop :=
    fun a ha => collectGo_original text digestFn ms [] a ha
  have hwb : ∀ a ∈ ams, WellBracketed a.placeholder :=
    fun a ha => collectGo_wellBracketed text hd ms [] a ha
  have hnodup : (ams.map (fun a => a.placeholder)).Nodup :=
    (collectGo_nodup text digestFn ms []).1
  have hQ : List.Pairwise
      (fun a b : AMatch => a.stop ≤ b.start ∨ b.stop ≤ a.start) ams := by
    have hmap : List.Pairwise (fun ab cd : Nat × Nat => ab.2 ≤ cd.1 ∨ cd.2 ≤ ab.1)
        (ams.map (fun a => (a.start, a.stop))) := by
      rw [hamsdef, collectGo_starts, List.pairwise_map]
      exact hdisj
    rw [List.pairwise_map] at hmap
    exact hmap
  have hperm : sorted.Perm ams := sortBy_perm leA ams
  have hsortedP : List.Pairwise (fun a b => leA a b = true) sorted :=
    sortBy_pairwise
      (by
        intro a b
        rcases Nat.le_total b.start a.start with h | h
        · exact Or.inl (by simpa [hleA] using h)
        · exact Or.inr (by simpa [hleA] using h))
      (by
        intro a b c hab hbc
        simp only [hleA, decide_eq_true_eq] at hab hbc ⊢
        omega) ams
  have hdesc : DescDisjoint sorted := by
    have hQs : List.Pairwise
        (fun a b : AMatch => a.stop ≤ b.start ∨ b.stop ≤ a.start) sorted :=
      (hperm.pairwise_iff (fun h => h.symm)).mpr hQ
    refine List.Pairwise.imp_of_mem ?_ (hsortedP.and hQs)
    intro a b ha hb hab
    rcases hab with ⟨h1', h2'⟩
    have hstart : b.start ≤ a.start := by simpa [hleA] using h1'
    have haspan := hspan a (hperm.subset ha)
    rcases h2' with h | h
    · omega
    · exact h
  have hwf1 : ∀ m ∈ sorted, m.start ≤ m.stop :=
    fun m hm => Nat.le_of_lt (hspan m (hperm.subset hm)).1
  have hwf2 : ∀ m ∈ sorted, m.stop ≤ text.length :=
    fun m hm => (hspan m (hperm.subset hm)).2
  have hmask : sorted.foldl substStep text =
      splice (descPieces text sorted).1 (descPieces text sorted).2 := by
    rw [foldl_substStep_eq_maskOut sorted text hwf1 hwf2 hdesc,
      maskOut_eq_splice]
  have hbf := descPieces_bracketFree sorted text htext
  have htoks : (descPieces text sorted).1.map (fun pr => pr.2) =
      (sorted.map (fun m => m.placeholder)).reverse :=
    descPieces_tokens sorted text
  have htokwb : ∀ pr ∈ (descPieces text sorted).1, WellBracketed pr.2 := by
    intro pr hpr
    have hm : pr.2 ∈ (descPieces text sorted).1.map (fun pr => pr.2) :=
      List.mem_map_of_mem _ hpr
    rw [htoks, List.mem_reverse] at hm
    rcases List.mem_map.mp hm with ⟨a, ha, hpa⟩
    rw [← hpa]
    exact hwb a (hperm.subset ha)
  have hcontains : ∀ pr ∈ maps,
      containsSub (sorted.foldl substStep text) pr.1 = true := by
    intro pr hpr
    rcases List.mem_map.mp hpr with ⟨a, ha, rfl⟩
    rw [hmask, containsSub_iff_infix]
    have hmem : a.placeholder ∈ (descPieces text sorted).1.map (fun pr => pr.2) := by
      rw [htoks, List.mem_reverse]
      exact List.mem_map_of_mem _ (hperm.mem_iff.mpr ha)
    rcases List.mem_map.mp hmem with ⟨pc, hpc, hval⟩
    exact hval ▸ tok_infix_splice (descPieces text sorted).1
      (descPieces text sorted).2 pc hpc
  have hmiss : maps.filter
      (fun pr => !(containsSub (sorted.foldl substStep text) pr.1)) = [] := by
    rw [List.filter_eq_nil_iff]
    intro pr hpr
    simp [hcontains pr hpr]
  set rs := sortBy (fun a b : Str × Str => decide (b.1.length ≤ a.1.length)) maps
    with hrsdef
  have hrsperm : rs.Perm maps := sortBy_perm _ maps
  have hrs1 : ∀ r ∈ rs, WellBracketed r.1 ∧ BracketFree r.2 := by
    intro r hr
    rcases List.mem_map.mp (hrsperm.subset hr) with ⟨a, ha, rfl⟩
    refine ⟨hwb a ha, ?_⟩
    rw [horig a ha]
    exact bracketFree_sliceStr _ _ htext
  have hfold := foldl_replaceAll_splice rs (descPieces text sorted).1
    (descPieces text sorted).2 hrs1
    (fun pr hpr => ⟨hbf.1 pr hpr, Or.inl (htokwb pr hpr)⟩) hbf.2
  have hg : ∀ m ∈ sorted, tokAfter rs m.placeholder =
      sliceStr text m.start m.stop := by
    intro a ha
    have hams : a ∈ ams := hperm.subset ha
    have hmem : (a.placeholder, a.original) ∈ rs :=
      hrsperm.mem_iff.mpr (List.mem_map_of_mem _ hams)
    have huniq : ∀ r ∈ rs, r.1 = a.placeholder → r.2 = a.original := by
      intro r hr he
      rcases List.mem_map.mp (hrsperm.subset hr) with ⟨b, hb, rfl⟩
      have hba : b = a := List.inj_on_of_nodup_map hnodup hb hams he
      rw [hba]
    have hO : BracketFree a.original := by
      rw [horig a hams]
      exact bracketFree_sliceStr _ _ htext
    have hkeys : ∀ r ∈ rs, WellBracketed r.1 := fun r hr => (hrs1 r hr).1
    have := tokAfter_eq hO rs hmem huniq hkeys
    rw [this, horig a hams]
  have hre := descPieces_reassemble (fun p => tokAfter rs p) sorted text
    hwf1 hwf2 hdesc hg
  rw [h1, h2]
  unfold reidentify
  rw [hmiss]
  simp only [List.isEmpty_nil, Bool.not_true, Bool.and_false, Bool.false_eq_true,
    if_neg, not_false_iff]
  rw [← hrsdef, hmask, hfold, hre]

/-- C1, counterexample.  The round-trip claim fails as stated, because
overlapping matches of different categories corrupt the masked text.  On
`"A12.3X@b.cd"` the email pattern matches the whole string (offsets 0–11) and
the (case-sensitive) ICD-10 pattern matches `"A12.3X"` (offsets 0–6); the
right-to-left substitution then splices the ICD-10 placeholder into the
middle of the email placeholder, re-identification cannot restore the email,
and the result differs from the input. -/
theorem C1_roundtrip_counterexample :
    ¬ (∀ (text : Str) (ms : List RawMatch) (digestFn : Str → Category → Str)
        (strict : Bool), DetectionWF text ms → GoodDigest digestFn →
        reidentify strict (anonymize text ms digestFn).1
          (anonymize text ms digestFn).2 = Except.ok text) := by
  intro h
  have hdig : GoodDigest (fun _ _ => "abcdef12".toList) := by
    intro o c
    constructor
    · rfl
    · show ∀ ch ∈ "abcdef12".toList, ch ∈ hexChars
      decide
  have := h "A12.3X@b.cd".toList
    [⟨0, 11, Category.email⟩, ⟨0, 6, Category.art9_health_icd10⟩]
    (fun _ _ => "abcdef12".toList) false (by decide) hdig
  revert this
  decide

/-- Closed witness for `C1_roundtrip_amended` on a concrete date-bearing
text (strict mode on). -/
theorem C1_roundtrip_amended_witness :
    DetectionWF "31.12.2025".toList [⟨0, 10, Category.date⟩] ∧
      PairwiseDisjoint ([⟨0, 10, Category.date⟩] : List RawMatch) ∧
      BracketFree "31.12.2025".toList ∧
      reidentify true
        (anonymize "31.12.2025".toList [⟨0, 10, Category.date⟩]
          (fun _ _ => "abcdef12".toList)).1
        (anonymize "31.12.2025".toList [⟨0, 10, Category.date⟩]
          (fun _ _ => "abcdef12".toList)).2 = Except.ok "31.12.2025".toList :=
  ⟨by decide, by decide, by decide,
    C1_roundtrip_amended "31.12.2025".toList [⟨0, 10, Category.date⟩]
      (fun _ _ => "abcdef12".toList) true (by decide) (by decide) (by decide)
      (by
        intro o c
        constructor
        · rfl
        · show ∀ ch ∈ "abcdef12".toList, ch ∈ hexChars
          decide)⟩

/-! ## Theorems: occurrence analysis for no-leakage (C3) -/

theorem sliceStr_length {t : Str} {a b : Nat} (hb : b ≤ t.length) :
    (sliceStr t a b).length = b - a := by
  unfold sliceStr
  simp only [List.length_drop, List.length_take]
  omega

theorem infix_drop_take {o l : Str} (h : o <:+: l) :
    ∃ k, k + o.length ≤ l.length ∧ o = (l.drop k).take o.length := by
  rcases h with ⟨pre, post, hsum⟩
  refine ⟨pre.length, ?_, ?_⟩
  · have := congrArg List.length hsum
    simp only [List.length_append] at this
    omega
  · have h1 : l.drop pre.length = o ++ post := by
      rw [← hsum, List.append_assoc, List.drop_left]
    rw [h1, List.take_left' rfl]

theorem infix_append_split {o x y : Str} (h : o <:+: x ++ y) :
    o <:+: x ∨ o <:+: y ∨
      ∃ x' y', x' ≠ [] ∧ y' ≠ [] ∧ o = x' ++ y' ∧ x' <:+ x ∧ y' <+: y := by
  rcases infix_drop_take h with ⟨k, hk, ho⟩
  simp only [List.length_append] at hk
  by_cases h1 : k + o.length ≤ x.length
  · left
    have hx : o = (x.drop k).take o.length := by
      conv_lhs => rw [ho]
      rw [List.drop_append_of_le_length (by omega),
        List.take_append_of_le_length (by simp only [List.length_drop]; omega)]
    have hsub : ((x.drop k).take o.length) <:+: x :=
      ( List.take_prefix _ (x.drop k)).isInfix.trans (x.drop_suffix k).isInfix
    rwa [← hx] at hsub
  · by_cases h2 : x.length ≤ k
    · right; left
      have hy : o = (y.drop (k - x.length)).take o.length := by
        have hxk : x.length + (k - x.length) = k := by omega
        conv_lhs => rw [ho, ← hxk, List.drop_append]
      have hsub : ((y.drop (k - x.length)).take o.length) <:+: y :=
        ( List.take_prefix _ (y.drop (k - x.length))).isInfix.trans
          (y.drop_suffix (k - x.length)).isInfix
      rwa [← hy] at hsub
    · right; right
      have hdrop : (x ++ y).drop k = x.drop k ++ y :=
        List.drop_append_of_le_length (by omega)
      rw [hdrop] at ho
      have hlen2 : o.length = (x.drop k).length + (k + o.length - x.length) := by
        simp only [List.length_drop]
        omega
      rw [hlen2, List.take_append] at ho
      refine ⟨x.drop k, y.take (k + o.length - x.length), ?_, ?_, ho,
        x.drop_suffix k, List.take_prefix _ y⟩
      · intro he
        have := congrArg List.length he
        simp only [List.length_drop, List.length_nil] at this
        omega
      · intro he
        have := congrArg List.length he
        simp only [List.length_take, List.length_nil] at this
        omega

theorem mem_of_pre_ne_nil {y' : Str} {c : Char} {rest : Str}
    (hpre : y' <+: c :: rest) (hne : y' ≠ []) : c ∈ y' := by
  rcases y' with _ | ⟨d, y''⟩
  · exact absurd rfl hne
  · rcases hpre with ⟨w, hw⟩
    have : d = c := by
      have := congrArg (fun l => l.head?) hw
      simpa using this
    rw [this]
    exact List.mem_cons_self _ _

theorem mem_of_suffix_ne_nil {x' mid : Str}
    (hsuf : x' <:+ '[' :: (mid ++ [']'])) (hne : x' ≠ []) : ']' ∈ x' := by
  rcases hsuf with ⟨w, hw⟩
  rcases List.eq_nil_or_concat x' with rfl | ⟨x'', c, rfl⟩
  · exact absurd rfl hne
  · have h2 : (w ++ x'') ++ [c] = ('[' :: mid) ++ [']'] := by
      simpa [List.concat_eq_append, List.append_assoc] using hw
    have h3 := (List.append_inj' h2 rfl).2
    have hc : c = ']' := by simpa using h3
    rw [hc]
    simp

theorem bf_infix_splice {o : Str} (ho : BracketFree o) (hne : o ≠ []) :
    ∀ (ps : List (Str × Str)) (tail : Str),
      (∀ pr ∈ ps, WellBracketed pr.2) →
      o <:+: splice ps tail →
      (∃ pr ∈ ps, o <:+: pr.1) ∨ (∃ pr ∈ ps, o <:+: pr.2) ∨ o <:+: tail := by
  intro ps
  induction ps with
  | nil => intro tail _ h; exact Or.inr (Or.inr h)
  | cons q ps' ih =>
    intro tail hwb h
    have hq := hwb q (by simp)
    rcases hq with ⟨mid, hmid, hq2⟩
    have hsh : splice (q :: ps') tail = q.1 ++ (q.2 ++ splice ps' tail) := by
      simp [splice]
    rw [hsh] at h
    rcases infix_append_split h with h | h | ⟨x', y', hx'ne, hy'ne, hsum, hsufx, hprey⟩
    · exact Or.inl ⟨q, by simp, h⟩
    · rcases infix_append_split h with h | h | ⟨x', y', hx'ne, hy'ne, hsum, hsufx, hprey⟩
      · exact Or.inr (Or.inl ⟨q, by simp, h⟩)
      · rcases ih tail (fun pr hpr => hwb pr (List.mem_cons_of_mem _ hpr)) h with
          h | h | h
        · rcases h with ⟨pr, hpr, hinf⟩
          exact Or.inl ⟨pr, List.mem_cons_of_mem _ hpr, hinf⟩
        · rcases h with ⟨pr, hpr, hinf⟩
          exact Or.inr (Or.inl ⟨pr, List.mem_cons_of_mem _ hpr, hinf⟩)
        · exact Or.inr (Or.inr h)
      · exfalso
        rw [hq2] at hsufx
        have := mem_of_suffix_ne_nil hsufx hx'ne
        have hmem : ']' ∈ o := by
          rw [hsum]
          exact List.mem_append.mpr (Or.inl this)
        exact (ho ']' hmem).2 rfl
    · exfalso
      have hhead : q.2 ++ splice ps' tail = '[' :: (mid ++ [']'] ++ splice ps' tail) := by
        rw [hq2]
        simp
      rw [hhead] at hprey
      have := mem_of_pre_ne_nil hprey hy'ne
      have hmem : '[' ∈ o := by
        rw [hsum]
        exact List.mem_append.mpr (Or.inr this)
      exact (ho '[' hmem).1 rfl

theorem infix_sliceStr_occ {o t : Str} {a b : Nat} (hab : a ≤ b)
    (hb : b ≤ t.length) (h : o <:+: sliceStr t a b) :
    ∃ k, a ≤ k ∧ k + o.length ≤ b ∧ o <+: t.drop k := by
  rcases infix_drop_take h with ⟨k0, hk0, ho⟩
  have hslen : (sliceStr t a b).length = b - a := sliceStr_length hb
  refine ⟨a + k0, by omega, by omega, ?_⟩
  have h1 : (sliceStr t a b).drop k0 = (t.take b).drop (a + k0) := by
    unfold sliceStr
    rw [List.drop_drop]
  have h2 : t.drop (a + k0) = (t.take b).drop (a + k0) ++ t.drop b := by
    conv_lhs => rw [← List.take_append_drop b t]
    rw [List.drop_append_of_le_length]
    simp only [List.length_take]
    omega
  rw [h2, ← h1]
  have h3 : o <+: (sliceStr t a b).drop k0 := by
    conv_lhs => rw [ho]
    exact List.take_prefix _ _
  exact h3.trans (List.prefix_append _ _)

theorem mem_occPositions {t o : Str} {k : Nat} (hk : k ≤ t.length)
    (h : o <+: t.drop k) : k ∈ occPositions t o := by
  unfold occPositions
  rw [List.mem_filter]
  exact ⟨List.mem_range.mpr (by omega), List.isPrefixOf_iff_prefix.mpr h⟩

/-- C3, amended.  No leakage: when the detected spans are pairwise
non-overlapping, the text contains no square brackets, every occurrence in
the text of a recorded original coincides with a detected span, and no
recorded original occurs inside a minted placeholder, then none of the
original substrings recorded in the store occurs as a substring of the
masked text. -/
theorem C3_no_leakage_amended (text : Str) (ms : List RawMatch)
    (digestFn : Str → Category → Str)
    (hdet : DetectionWF text ms) (hdisj : PairwiseDisjoint ms)
    (htext : BracketFree text) (hd : GoodDigest digestFn)
    (hocc : ∀ pr ∈ (anonymize text ms digestFn).2, ∀ k ∈ occPositions text pr.2,
      ∃ m ∈ ms, m.start = k ∧ m.stop = k + pr.2.length)
    (hint : ∀ pr ∈ (anonymize text ms digestFn).2,
      ∀ pr' ∈ (anonymize text ms digestFn).2, ¬ pr.2 <:+: pr'.1) :
    ∀ pr ∈ (anonymize text ms digestFn).2,
      containsSub (anonymize text ms digestFn).1 pr.2 = false := by
  set ams := collectGo text digestFn [] ms with hamsdef
  set leA : AMatch → AMatch → Bool := fun a b => decide (b.start ≤ a.start)
    with hleA
  set sorted := sortBy leA ams with hsorted
  set maps := ams.map (fun a => (a.placeholder, a.original)) with hmapsdef
  have h1 : (anonymize text ms digestFn).1 = sorted.foldl substStep text := rfl
  have h2 : (anonymize text ms digestFn).2 = maps := rfl
  have hspan : ∀ a ∈ ams, a.start < a.stop ∧ a.stop ≤ text.length := by
    intro a ha
    rcases collectGo_span_mem text digestFn ms [] a ha with ⟨m, hm, e1, e2⟩
    rw [e1, e2]
    exact hdet.1 m hm
  have horig : ∀ a ∈ ams, a.original = sliceStr text a.start a.stop :=
    fun a ha => collectGo_original text digestFn ms [] a ha
  have hwb : ∀ a ∈ ams, WellBracketed a.placeholder :=
    fun a ha => collectGo_wellBracketed text hd ms [] a ha
  have hQ : List.Pairwise
      (fun a b : AMatch => a.stop ≤ b.start ∨ b.stop ≤ a.start) ams := by
    have hmap : List.Pairwise (fun ab cd : Nat × Nat => ab.2 ≤ cd.1 ∨ cd.2 ≤ ab.1)
        (ams.map (fun a => (a.start, a.stop))) := by
      rw [hamsdef, collectGo_starts, List.pairwise_map]
      exact hdisj
    rw [List.pairwise_map] at hmap
    exact hmap
  have hperm : sorted.Perm ams := sortBy_perm leA ams
  have hsortedP : List.Pairwise (fun a b => leA a b = true) sorted :=
    sortBy_pairwise
      (by
        intro a b
        rcases Nat.le_total b.start a.start with h | h
        · exact Or.inl (by simpa [hleA] using h)
        · exact Or.inr (by simpa [hleA] using h))
      (by
        intro a b c hab hbc
        simp only [hleA, decide_eq_true_eq] at hab hbc ⊢
        omega) ams
  have hdesc : DescDisjoint sorted := by
    have hQs : List.Pairwise
        (fun a b : AMatch => a.stop ≤ b.start ∨ b.stop ≤ a.start) sorted :=
      (hperm.pairwise_iff (fun h => h.symm)).mpr hQ
    refine List.Pairwise.imp_of_mem ?_ (hsortedP.and hQs)
    intro a b ha hb hab
    rcases hab with ⟨h1', h2'⟩
    have hstart : b.start ≤ a.start := by simpa [hleA] using h1'
    have haspan := hspan a (hperm.subset ha)
    rcases h2' with h | h
    · omega
    · exact h
  have hwf1 : ∀ m ∈ sorted, m.start ≤ m.stop :=
    fun m hm => Nat.le_of_lt (hspan m (hperm.subset hm)).1
  have hwf2 : ∀ m ∈ sorted, m.stop ≤ text.length :=
    fun m hm => (hspan m (hperm.subset hm)).2
  have hmask : sorted.foldl substStep text =
      splice (descPieces text sorted).1 (descPieces text sorted).2 := by
    rw [foldl_substStep_eq_maskOut sorted text hwf1 hwf2 hdesc,
      maskOut_eq_splice]
  have htoks : (descPieces text sorted).1.map (fun pr => pr.2) =
      (sorted.map (fun m => m.placeholder)).reverse :=
    descPieces_tokens sorted text
  have htokwb : ∀ pr ∈ (descPieces text sorted).1, WellBracketed pr.2 := by
    intro pr hpr
    have hm : pr.2 ∈ (descPieces text sorted).1.map (fun pr => pr.2) :=
      List.mem_map_of_mem _ hpr
    rw [htoks, List.mem_reverse] at hm
    rcases List.mem_map.mp hm with ⟨a, ha, hpa⟩
    rw [← hpa]
    exact hwb a (hperm.subset ha)
  intro pr hpr
  rw [h2] at hpr
  rcases List.mem_map.mp hpr with ⟨a, ha, rfl⟩
  have hoslice : a.original = sliceStr text a.start a.stop := horig a ha
  have hob : BracketFree a.original := by
    rw [hoslice]
    exact bracketFree_sliceStr _ _ htext
  have holen : a.original.length = a.stop - a.start := by
    rw [hoslice]
    exact sliceStr_length (hspan a ha).2
  have hone : a.original ≠ [] := by
    intro he
    have := congrArg List.length he
    simp only [List.length_nil] at this
    have := hspan a ha
    omega
  rw [Bool.eq_false_iff]
  intro hcon
  rw [h1, hmask, containsSub_iff_infix] at hcon
  have hsegcase : ∀ seg ∈ (descPieces text sorted).1.map (fun pc => pc.1) ++
      [(descPieces text sorted).2], a.original <:+: seg → False := by
    intro seg hsegmem hinf
    rcases descPieces_positions sorted text hwf1 hwf2 hdesc seg hsegmem with
      ⟨α, β, hαβ, hβ, hsegslice, hdisjint⟩
    rw [hsegslice] at hinf
    rcases infix_sliceStr_occ hαβ hβ hinf with ⟨k, hαk, hkβ, hkpre⟩
    have hkmem : k ∈ occPositions text a.original :=
      mem_occPositions (by omega) hkpre
    rcases hocc (a.placeholder, a.original) hpr k hkmem with ⟨m, hm, hms, hme⟩
    have hmams : ∃ a' ∈ ams, a'.start = m.start ∧ a'.stop = m.stop := by
      have : (m.start, m.stop) ∈ ams.map (fun a => (a.start, a.stop)) := by
        rw [hamsdef, collectGo_starts]
        exact List.mem_map_of_mem _ hm
      rcases List.mem_map.mp this with ⟨a', ha', he⟩
      rw [Prod.mk.injEq] at he
      exact ⟨a', ha', he.1, he.2⟩
    rcases hmams with ⟨a', ha', he1, he2⟩
    have hme' : m.stop = k + a.original.length := hme
    have hlen1 : 0 < a.original.length := List.length_pos.mpr hone
    rcases hdisjint a' (hperm.mem_iff.mpr ha') with hcase | hcase
    · omega
    · omega
  rcases bf_infix_splice hob hone (descPieces text sorted).1
    (descPieces text sorted).2 htokwb hcon with
    ⟨pc, hpc, hinf⟩ | ⟨pc, hpc, hinf⟩ | hinf
  · exact hsegcase pc.1 (List.mem_append.mpr (Or.inl (List.mem_map_of_mem _ hpc)))
      hinf
  · have hm : pc.2 ∈ (descPieces text sorted).1.map (fun pr => pr.2) :=
      List.mem_map_of_mem _ hpc
    rw [htoks, List.mem_reverse] at hm
    rcases List.mem_map.mp hm with ⟨a', ha', hpa⟩
    have hmaps' : (a'.placeholder, a'.original) ∈ maps :=
      List.mem_map_of_mem _ (hperm.subset ha')
    have := hint (a.placeholder, a.original) hpr (a'.placeholder, a'.original)
      (h2 ▸ hmaps')
    rw [hpa] at this
    exact this hinf
  · exact hsegcase (descPieces text sorted).2
      (List.mem_append.mpr (Or.inr (List.mem_singleton.mpr rfl))) hinf

/-- C3, counterexample.  No-leakage fails as stated: detection is best-effort
and an undetected second occurrence of a detected substring survives in the
masked text.  On `"31.12.2025 x131.12.20256"` the date regex matches only the
leading `"31.12.2025"` (inside `"x131.12.20256"` no match starts on a word
boundary), yet `"31.12.2025"` also occurs inside `"x131.12.20256"`, so the
recorded original still occurs in the masked text. -/
theorem C3_no_leakage_counterexample :
    ¬ (∀ (text : Str) (ms : List RawMatch) (digestFn : Str → Category → Str),
        DetectionWF text ms → GoodDigest digestFn →
        ∀ pr ∈ (anonymize text ms digestFn).2,
          containsSub (anonymize text ms digestFn).1 pr.2 = false) := by
  intro h
  have hdig : GoodDigest (fun _ _ => "abcdef12".toList) := by
    intro o c
    constructor
    · rfl
    · show ∀ ch ∈ "abcdef12".toList, ch ∈ hexChars
      decide
  have := h "31.12.2025 x131.12.20256".toList [⟨0, 10, Category.date⟩]
    (fun _ _ => "abcdef12".toList) (by decide) hdig
    ("[DATE_abcdef12]".toList, "31.12.2025".toList) (by decide)
  revert this
  decide

/-- Closed witness for `C3_no_leakage_amended` on a concrete date-bearing
text. -/
theorem C3_no_leakage_amended_witness :
    DetectionWF "31.12.2025".toList [⟨0, 10, Category.date⟩] ∧
      (∀ pr ∈ (anonymize "31.12.2025".toList [⟨0, 10, Category.date⟩]
          (fun _ _ => "abcdef12".toList)).2,
        ∀ k ∈ occPositions "31.12.2025".toList pr.2,
          ∃ m ∈ ([⟨0, 10, Category.date⟩] : List RawMatch),
            m.start = k ∧ m.stop = k + pr.2.length) ∧
      ∀ pr ∈ (anonymize "31.12.2025".toList [⟨0, 10, Category.date⟩]
          (fun _ _ => "abcdef12".toList)).2,
        containsSub (anonymize "31.12.2025".toList [⟨0, 10, Category.date⟩]
          (fun _ _ => "abcdef12".toList)).1 pr.2 = false :=
  ⟨by decide, by decide,
    C3_no_leakage_amended "31.12.2025".toList [⟨0, 10, Category.date⟩]
      (fun _ _ => "abcdef12".toList) (by decide) (by decide) (by decide)
      (by
        intro o c
        constructor
        · rfl
        · show ∀ ch ∈ "abcdef12".toList, ch ∈ hexChars
          decide)
      (by decide) (by decide)⟩
